import Mathlib

/-!
Shallow embedding of the `pulse` entity-component runtime (`src/scene.rs`,
`src/systems.rs`, `src/components.rs`).

`IntMap`/`BTreeMap` values are embedded as association lists with map
semantics (`lookupA` / `insertA` / `eraseA`), `IntSet` as a duplicate-free
list, `Vec` as `List`.  Index arithmetic inside the tables is bounded by
list lengths and cannot overflow, so those indices are plain `Nat`; the
allocator counter, by contrast, is an `AtomicUsize` whose `fetch_add` wraps
modulo `2^64` on the analyzed 64-bit target, and `Node.new` models that
wrap explicitly.  The recursive operations (`despawn_internal`, the
`set_parent` ancestor walk, the system traversals) are embedded with an
explicit fuel parameter; the public entry points instantiate the fuel with
a bound that dominates the recursion depth of the Rust original.
-/

namespace Pulse

/-- `Node` — `struct Node { id: usize }` from `scene.rs`. -/
structure Node where
  id : Nat
deriving DecidableEq, Repr

/-- `ComponentEvent` from `scene.rs`. -/
inductive ComponentEvent where
  | Added (n : Node)
  | Modified (n : Node)
  | Removed (n : Node)
deriving DecidableEq, Repr

/-- The modulus of `usize` arithmetic on the analyzed 64-bit target. -/
def USIZE : Nat := 2 ^ 64

/-- `Node::new`: `fetch_add(1, Relaxed)` on the shared `AtomicUsize`
allocator returns the previous counter value and stores its wrapping
successor — `usize` addition wraps modulo `2^64`. -/
def Node.new (c : Nat) : Node × Nat := (⟨c % USIZE⟩, (c + 1) % USIZE)

section AssocMap

variable {κ : Type} {α : Type} [DecidableEq κ]

/-- Association-list model of map lookup (`IntMap::get` / `BTreeMap::get`). -/
def lookupA : List (κ × α) → κ → Option α
  | [], _ => none
  | (k, v) :: r, q => if k = q then some v else lookupA r q

/-- Association-list model of map removal (`IntMap::remove`). -/
def eraseA : List (κ × α) → κ → List (κ × α)
  | [], _ => []
  | p :: r, q => if p.1 = q then eraseA r q else p :: eraseA r q

/-- Association-list model of map insertion (`IntMap::insert` /
`BTreeMap::insert`): overwrites the entry if the key is present, otherwise
appends a fresh entry. -/
def insertA : List (κ × α) → κ → α → List (κ × α)
  | [], q, v => [(q, v)]
  | p :: r, q, v => if p.1 = q then (q, v) :: r else p :: insertA r q v

end AssocMap

/-- `ComponentTable<T>` from `scene.rs`: dense value array, node → slot
index, and the append-only change-event log. -/
structure ComponentTable (V : Type) where
  node_indexes : List (Node × Nat)
  items : List V
  events : List ComponentEvent
deriving DecidableEq, Repr

namespace ComponentTable

variable {V : Type}

/-- `ComponentTable::new`. -/
def new : ComponentTable V := ⟨[], [], []⟩

/-- `ComponentTable::add`: no-op when the node already has an entry,
otherwise append the value at the tail slot and log `Added`. -/
def add (t : ComponentTable V) (n : Node) (v : V) : ComponentTable V :=
  if (lookupA t.node_indexes n).isSome then t
  else
    { node_indexes := insertA t.node_indexes n t.items.length
      items := t.items ++ [v]
      events := t.events ++ [ComponentEvent.Added n] }

/-- `ComponentTable::get`: slot lookup through the index map.  The Rust
original indexes `self.items[*index]` unconditionally; the table invariant
keeps the index in bounds, where the embedding's `[i]?` agrees with it. -/
def get (t : ComponentTable V) (n : Node) : Option V :=
  (lookupA t.node_indexes n).bind (fun i => t.items[i]?)

/-- `ComponentTable::set`: overwrite and log `Modified` only when the new
value differs from the stored one. -/
def set [DecidableEq V] (t : ComponentTable V) (n : Node) (v : V) :
    ComponentTable V :=
  match lookupA t.node_indexes n with
  | none => t
  | some i =>
    if t.items[i]? = some v then t
    else
      { t with
          items := t.items.set i v
          events := t.events ++ [ComponentEvent.Modified n] }

/-- `Vec::swap_remove(i)`: replace slot `i` with the last element and drop
the tail.  The Rust original panics when `i` is out of bounds; the table
invariant keeps every stored index in bounds. -/
def swapRemove (l : List V) (i : Nat) : List V :=
  if i < l.length then
    match l.getLast? with
    | some last => (l.set i last).dropLast
    | none => l
  else l

/-- The repair loop in `ComponentTable::remove`: rewrite the first index
entry holding `moved` to `idx` and stop (`break`). -/
def fixMoved : List (Node × Nat) → Nat → Nat → List (Node × Nat)
  | [], _, _ => []
  | p :: r, moved, idx =>
    if p.2 = moved then (p.1, idx) :: r else p :: fixMoved r moved idx

/-- `ComponentTable::remove`: log `Removed`, swap-remove the value, and —
when the freed slot was not the tail (`moved_index != index`) — repair the
key that pointed at the old tail slot. -/
def remove (t : ComponentTable V) (n : Node) : ComponentTable V :=
  match lookupA t.node_indexes n with
  | none => t
  | some index =>
    ⟨(if (swapRemove t.items index).length = index then eraseA t.node_indexes n
      else fixMoved (eraseA t.node_indexes n) (swapRemove t.items index).length index),
      swapRemove t.items index,
      t.events ++ [ComponentEvent.Removed n]⟩

/-- `ComponentTable::clear_events`. -/
def clearEvents (t : ComponentTable V) : ComponentTable V :=
  { t with events := [] }

end ComponentTable

section TableWF

variable {V : Type}

/-- The component-table invariant from the spec: the node → index map is a
bijection onto `0..items.len()`, phrased as: the keys are distinct and the
stored indices are a permutation of `List.range items.length`. -/
def TableWF (t : ComponentTable V) : Prop :=
  (t.node_indexes.map Prod.fst).Nodup ∧
  (t.node_indexes.map Prod.snd).Perm (List.range t.items.length)

instance (t : ComponentTable V) : Decidable (TableWF t) := by
  unfold TableWF
  infer_instance

/-- Component-table states reachable by any sequence of `add`/`set`/`remove`
calls starting from the empty table. -/
inductive TReach [DecidableEq V] : ComponentTable V → Prop
  | new : TReach ComponentTable.new
  | add (t : ComponentTable V) (n : Node) (v : V) :
      TReach t → TReach (t.add n v)
  | set (t : ComponentTable V) (n : Node) (v : V) :
      TReach t → TReach (t.set n v)
  | remove (t : ComponentTable V) (n : Node) :
      TReach t → TReach (t.remove n)

end TableWF

/-- `Scene` from `scene.rs`.  The type-erased registry
(`component_indexes : BTreeMap<TypeId, usize>`,
`component_tables : Vec<Box<dyn DynamicComponentTable>>`) is embedded with
`Nat` type keys and a vector of tables over one value type `V`; the
per-table logic is uniform in the component type, and the registry's
downcast always succeeds for a slot looked up by its own key. -/
structure Scene (V : Type) where
  nodes : List Node
  parents : List (Node × Node)
  children : List (Node × List Node)
  component_indexes : List (Nat × Nat)
  component_tables : List (ComponentTable V)
deriving DecidableEq, Repr

namespace Scene

variable {V : Type}

/-- `Scene::new`. -/
def new : Scene V := ⟨[], [], [], [], []⟩

/-- `Scene::contains`. -/
def contains (s : Scene V) (n : Node) : Prop := n ∈ s.nodes

instance (s : Scene V) (n : Node) : Decidable (s.contains n) :=
  inferInstanceAs (Decidable (n ∈ s.nodes))

/-- `IntSet::insert` on `nodes`. -/
def insertNode (l : List Node) (n : Node) : List Node :=
  if n ∈ l then l else l ++ [n]

/-- `Scene::spawn`: allocate from the shared counter and register the node
as live.  Returns the updated scene, the fresh node, and the new counter. -/
def spawn (s : Scene V) (c : Nat) : Scene V × Node × Nat :=
  let p := Node.new c
  ({ s with nodes := insertNode s.nodes p.1 }, p.1, p.2)

/-- `Scene::get_parent`. -/
def getParent (s : Scene V) (n : Node) : Option Node := lookupA s.parents n

/-- `Scene::get_children`. -/
def getChildren (s : Scene V) (n : Node) : Option (List Node) :=
  lookupA s.children n

/-- The first-occurrence removal loop in `Scene::remove_parent` (`while`
with `break` over the child vector). -/
def removeChildEntry : List Node → Node → List Node
  | [], _ => []
  | c :: r, n => if c = n then r else c :: removeChildEntry r n

/-- `Scene::remove_parent`: detach `n` from its current parent (no-op when
it has none). -/
def removeParent (s : Scene V) (n : Node) : Scene V :=
  match lookupA s.parents n with
  | none => s
  | some p =>
    let s := { s with parents := eraseA s.parents n }
    match lookupA s.children p with
    | none => s
    | some ch =>
      { s with children := insertA s.children p (removeChildEntry ch n) }

/-- The ancestor walk in `Scene::set_parent` (`while root.is_some()`),
with explicit fuel; the walk of the Rust original terminates on acyclic
hierarchies, where any fuel larger than the chain length gives the same
answer. -/
def chainHas (parents : List (Node × Node)) : Nat → Node → Node → Bool
  | 0, _, _ => false
  | fuel + 1, cur, n =>
    if cur = n then true
    else
      match lookupA parents cur with
      | none => false
      | some p => chainHas parents fuel p n

/-- `Scene::set_parent`: liveness check, cycle guard, detach from the old
parent, attach as the last child of the new parent. -/
def setParent (s : Scene V) (n p : Node) : Scene V :=
  if n ∈ s.nodes ∧ p ∈ s.nodes then
    if chainHas s.parents (s.parents.length + 1) p n then s
    else
      let s := s.removeParent n
      let s := { s with parents := insertA s.parents n p }
      let ch := (lookupA s.children p).getD []
      { s with children := insertA s.children p (ch ++ [n]) }
  else s

/-- `Scene::despawn_internal`, with fuel: remove the node, recurse into its
(pre-removal) children, remove it from every component table, and drop its
parent entry.  One fuel unit is consumed per recursion level; the Rust
recursion depth is bounded by the live-node count, with which the public
`despawn` instantiates the fuel. -/
def despawnInternal : Nat → Scene V → Node → Scene V
  | 0, s, _ => s
  | fuel + 1, s, n =>
    if n ∈ s.nodes then
      let ch := (lookupA s.children n).getD []
      let s1 : Scene V :=
        { s with
            nodes := s.nodes.filter (fun m => decide (m ≠ n))
            children := eraseA s.children n }
      let s2 := ch.foldl (despawnInternal fuel) s1
      { s2 with
          component_tables := s2.component_tables.map (fun t => t.remove n)
          parents := eraseA s2.parents n }
    else s

/-- `Scene::despawn`: cascade through `despawn_internal`, then call
`remove_parent` (which, in the Rust original, finds the parent entry already
removed by `despawn_internal`). -/
def despawn (s : Scene V) (n : Node) : Scene V :=
  if n ∈ s.nodes then (despawnInternal s.nodes.length s n).removeParent n
  else s

/-- `Scene::component_index::<T>` with `Nat` type keys. -/
def componentIndex (s : Scene V) (τ : Nat) : Option Nat :=
  lookupA s.component_indexes τ

/-- Update the table at slot `i` (`self.component_tables.borrow_mut()[i]`);
the registry invariant keeps the slot in bounds, where `[i]?` agrees with
the Rust original's panicking index. -/
def updTable (l : List (ComponentTable V)) (i : Nat)
    (f : ComponentTable V → ComponentTable V) : List (ComponentTable V) :=
  match l[i]? with
  | some t => l.set i (f t)
  | none => l

/-- `Scene::add::<T>`: find or lazily create the table for the type key,
then delegate to `ComponentTable::add`.  Note the Rust original performs no
liveness check on `node`. -/
def add [DecidableEq V] (s : Scene V) (τ : Nat) (n : Node) (v : V) :
    Scene V :=
  match s.componentIndex τ with
  | some i =>
    { s with component_tables := updTable s.component_tables i (fun t => t.add n v) }
  | none =>
    let i := s.component_tables.length
    let s' : Scene V :=
      { s with
          component_indexes := insertA s.component_indexes τ i
          component_tables := s.component_tables ++ [ComponentTable.new] }
    { s' with
        component_tables := updTable s'.component_tables i (fun t => t.add n v) }

/-- `Scene::get::<T>`: absent registry entry means component absent. -/
def get (s : Scene V) (τ : Nat) (n : Node) : Option V :=
  match s.componentIndex τ with
  | some i => (s.component_tables[i]?).bind (fun t => t.get n)
  | none => none

/-- `Scene::set::<T>`: no-op when no table is registered for the type. -/
def set [DecidableEq V] (s : Scene V) (τ : Nat) (n : Node) (v : V) :
    Scene V :=
  match s.componentIndex τ with
  | some i =>
    { s with component_tables := updTable s.component_tables i (fun t => t.set n v) }
  | none => s

/-- `Scene::set_or_add::<T>`: `add` then `set`. -/
def setOrAdd [DecidableEq V] (s : Scene V) (τ : Nat) (n : Node) (v : V) :
    Scene V :=
  (s.add τ n v).set τ n v

/-- `Scene::remove::<T>`: no-op when no table is registered for the type. -/
def removeComponent [DecidableEq V] (s : Scene V) (τ : Nat) (n : Node) :
    Scene V :=
  match s.componentIndex τ with
  | some i =>
    { s with component_tables := updTable s.component_tables i (fun t => t.remove n) }
  | none => s

/-- `Scene::events::<T>`: the accumulated log, or the empty slice when no
table is registered for the type. -/
def events (s : Scene V) (τ : Nat) : List ComponentEvent :=
  match s.componentIndex τ with
  | some i =>
    match s.component_tables[i]? with
    | some t => t.events
    | none => []
  | none => []

/-- `Scene::clear_events`: clears the log of every registered table. -/
def clearEvents (s : Scene V) : Scene V :=
  { s with component_tables := s.component_tables.map ComponentTable.clearEvents }

end Scene

/-! Exact-arithmetic model of the `glam` vector/matrix types used by
`components.rs` and `systems.rs`.  `glam` computes over `f32`; the model
computes over `ℤ` with `glam`'s exact formulas (column-major `Mat4`,
`quat_to_axes`, `from_scale_rotation_translation`), which involve only ring
operations and therefore agree with `f32` on inputs whose values and
intermediates are exactly representable integers, as in the concrete scenes
below. -/

/-- `glam::Vec3`. -/
structure Vec3 where
  x : ℤ
  y : ℤ
  z : ℤ
deriving DecidableEq, Repr

/-- `glam::Quat` (x, y, z, w). -/
structure Quat where
  x : ℤ
  y : ℤ
  z : ℤ
  w : ℤ
deriving DecidableEq, Repr

/-- `glam::Vec4`. -/
structure Vec4 where
  x : ℤ
  y : ℤ
  z : ℤ
  w : ℤ
deriving DecidableEq, Repr

/-- `glam::Mat4`: four columns. -/
structure Mat4 where
  x_axis : Vec4
  y_axis : Vec4
  z_axis : Vec4
  w_axis : Vec4
deriving DecidableEq, Repr

def Vec3.ZERO : Vec3 := ⟨0, 0, 0⟩

def Vec3.ONE : Vec3 := ⟨1, 1, 1⟩

def Quat.IDENTITY : Quat := ⟨0, 0, 0, 1⟩

/-- `Vec4::mul(f32)`. -/
def Vec4.smul (v : Vec4) (c : ℤ) : Vec4 := ⟨v.x * c, v.y * c, v.z * c, v.w * c⟩

/-- `Vec4::add`. -/
def Vec4.addV (a b : Vec4) : Vec4 := ⟨a.x + b.x, a.y + b.y, a.z + b.z, a.w + b.w⟩

def Mat4.IDENTITY : Mat4 :=
  ⟨⟨1, 0, 0, 0⟩, ⟨0, 1, 0, 0⟩, ⟨0, 0, 1, 0⟩, ⟨0, 0, 0, 1⟩⟩

/-- `Mat4::mul_vec4`: linear combination of the columns. -/
def Mat4.mulVec4 (m : Mat4) (v : Vec4) : Vec4 :=
  (((m.x_axis.smul v.x).addV (m.y_axis.smul v.y)).addV
      (m.z_axis.smul v.z)).addV (m.w_axis.smul v.w)

/-- `Mat4::mul_mat4` (the `*` in `systems.rs`). -/
def Mat4.mul (a b : Mat4) : Mat4 :=
  ⟨a.mulVec4 b.x_axis, a.mulVec4 b.y_axis, a.mulVec4 b.z_axis,
    a.mulVec4 b.w_axis⟩

/-- `Mat4::from_scale_rotation_translation`, via `glam`'s `quat_to_axes`. -/
def Mat4.fromScaleRotationTranslation (scale : Vec3) (rotation : Quat)
    (translation : Vec3) : Mat4 :=
  let x := rotation.x
  let y := rotation.y
  let z := rotation.z
  let w := rotation.w
  let x2 := x + x
  let y2 := y + y
  let z2 := z + z
  let xx := x * x2
  let xy := x * y2
  let xz := x * z2
  let yy := y * y2
  let yz := y * z2
  let zz := z * z2
  let wx := w * x2
  let wy := w * y2
  let wz := w * z2
  let x_axis : Vec4 := ⟨1 - (yy + zz), xy + wz, xz - wy, 0⟩
  let y_axis : Vec4 := ⟨xy - wz, 1 - (xx + zz), yz + wx, 0⟩
  let z_axis : Vec4 := ⟨xz + wy, yz - wx, 1 - (xx + yy), 0⟩
  ⟨x_axis.smul scale.x, y_axis.smul scale.y, z_axis.smul scale.z,
    ⟨translation.x, translation.y, translation.z, 1⟩⟩

/-- `LocalTransform` from `components.rs`. -/
structure LocalTransform where
  position : Vec3
  rotation : Quat
  scale : Vec3
deriving DecidableEq, Repr

/-- `LocalTransform::IDENTITY`. -/
def LocalTransform.IDENTITY : LocalTransform :=
  ⟨Vec3.ZERO, Quat.IDENTITY, Vec3.ONE⟩

/-- `LocalTransform::from_position`. -/
def LocalTransform.fromPosition (p : Vec3) : LocalTransform :=
  { LocalTransform.IDENTITY with position := p }

/-- `WorldTransform` from `components.rs`. -/
structure WorldTransform where
  matrix : Mat4
deriving DecidableEq, Repr

/-- `WorldTransform::IDENTITY`. -/
def WorldTransform.IDENTITY : WorldTransform := ⟨Mat4.IDENTITY⟩

/-- `WorldTransform::new`. -/
def WorldTransform.new (m : Mat4) : WorldTransform := ⟨m⟩

/-- The scene as seen by `compute_world_transform`: the hierarchy plus the
registry specialised to the two component types the system touches
(`LocalTransform` read, `WorldTransform` written through `set_or_add`). -/
structure TScene where
  nodes : List Node
  parents : List (Node × Node)
  children : List (Node × List Node)
  lt_table : ComponentTable LocalTransform
  wt_table : ComponentTable WorldTransform
deriving Repr

/-- `Scene::set_or_add::<WorldTransform>` as delegated to the registered
table: `add` then `set`. -/
def TScene.setOrAddWT (s : TScene) (n : Node) (v : WorldTransform) : TScene :=
  { s with wt_table := (s.wt_table.add n v).set n v }

/-- `compute_world_transform_internal` from `systems.rs`, with fuel: when a
`LocalTransform` is present, compose it onto the parent's matrix, store the
result through `set_or_add`, and propagate it; when absent, store nothing
and propagate `WorldTransform::IDENTITY`. -/
def cwtInternal : Nat → TScene → Node → WorldTransform → TScene
  | 0, s, _, _ => s
  | fuel + 1, s, n, parent_transform =>
    let step : TScene × WorldTransform :=
      match s.lt_table.get n with
      | some t =>
        let w := WorldTransform.new
          (Mat4.mul parent_transform.matrix
            (Mat4.fromScaleRotationTranslation t.scale t.rotation t.position))
        (s.setOrAddWT n w, w)
      | none => (s, WorldTransform.IDENTITY)
    ((lookupA step.1.children n).getD []).foldl
      (fun st c => cwtInternal fuel st c step.2) step.1

/-- `compute_world_transform` from `systems.rs`: seed the walk at every root
with the identity world transform.  The fuel bound dominates the recursion
depth of the Rust original (at most the live-node count on acyclic
hierarchies). -/
def computeWorldTransform (s : TScene) : TScene :=
  (s.nodes.filter (fun n => (lookupA s.parents n).isNone)).foldl
    (fun st n => cwtInternal (s.nodes.length + 1) st n WorldTransform.IDENTITY) s

/-! ### Specification-level predicates and reachability relations -/

/-- One recorded parent edge: `pstep l a b` holds when `a`'s parent in the
parent-of map `l` is `b`. -/
def pstep (l : List (Node × Node)) (a b : Node) : Prop := lookupA l a = some b

/-- The spec's hierarchy invariant (c): the parent-of relation is acyclic —
no node is its own proper ancestor. -/
def Acyclic (l : List (Node × Node)) : Prop :=
  ∀ n, ¬ Relation.TransGen (pstep l) n n

/-- Scene states (paired with the shared allocator counter) reachable by any
sequence of `spawn` / `despawn` / `set_parent` / `remove_parent` calls. -/
inductive HReach {V : Type} : Scene V → Nat → Prop
  | init (c : Nat) : HReach Scene.new c
  | spawn {s : Scene V} {c : Nat} : HReach s c →
      HReach (s.spawn c).1 (s.spawn c).2.2
  | despawn {s : Scene V} {c : Nat} (n : Node) : HReach s c →
      HReach (s.despawn n) c
  | setParent {s : Scene V} {c : Nat} (n p : Node) : HReach s c →
      HReach (s.setParent n p) c
  | removeParent {s : Scene V} {c : Nat} (n : Node) : HReach s c →
      HReach (s.removeParent n) c

/-- Parent-map simulation for despawn/remove_parent: the parent edges of
`B` are among those of `A` (entries are only erased), and distinct keys
stay distinct. -/
def PSub {V : Type} (A B : Scene V) : Prop :=
  (∀ a b, pstep B.parents a b → pstep A.parents a b) ∧
  ((A.parents.map Prod.fst).Nodup → (B.parents.map Prod.fst).Nodup)

/-- Registry well-formedness: every registered type key points at an
existing table slot (the Rust original indexes the table vector with the
registered slot unconditionally). -/
def RegOK {V : Type} (s : Scene V) : Prop :=
  ∀ p ∈ s.component_indexes, p.2 < s.component_tables.length

instance {V : Type} (s : Scene V) : Decidable (RegOK s) := by
  unfold RegOK
  infer_instance

/-- All registered tables satisfy the table invariant. -/
def GoodTables {V : Type} (s : Scene V) : Prop :=
  ∀ t ∈ s.component_tables, TableWF t

instance {V : Type} (s : Scene V) : Decidable (GoodTables s) := by
  unfold GoodTables
  infer_instance

/-- Simulation relation tracking a despawn cascade from state `A` to state
`B`: tables keep their slots, live nodes only disappear, event logs only
grow, a table entry vanishes only for a node despawned by the cascade, and
every despawned node with an entry gets a `Removed` event logged. -/
def DesSim {V : Type} (A B : Scene V) : Prop :=
  B.component_tables.length = A.component_tables.length ∧
  (∀ m, m ∈ B.nodes → m ∈ A.nodes) ∧
  ∀ (i : Nat) (tA tB : ComponentTable V), A.component_tables[i]? = some tA →
    B.component_tables[i]? = some tB →
    (∀ e ∈ tA.events, e ∈ tB.events) ∧
    (∀ m, (tA.get m).isSome →
      ((tB.get m).isSome ∨ (m ∈ A.nodes ∧ m ∉ B.nodes))) ∧
    (∀ m, m ∈ A.nodes → m ∉ B.nodes → (tA.get m).isSome →
      ComponentEvent.Removed m ∈ tB.events)

/-! ### Shared-allocator world (several scenes, one counter) -/

/-- A collection of scenes sharing the one `static ALLOCATOR` counter. -/
structure World (V : Type) where
  counter : Nat
  scenes : List (Scene V)

/-- Operations whose interleavings the allocator contract quantifies over:
`spawn` on some scene (the only operation touching the counter) and
`despawn` on some scene. -/
inductive WOp where
  | spawn (i : Nat)
  | despawn (i : Nat) (n : Node)
deriving DecidableEq, Repr

/-- One world step; returns the node issued by a `spawn`, if any. -/
def wstep {V : Type} (w : World V) : WOp → World V × Option Node
  | WOp.spawn i =>
    match w.scenes[i]? with
    | some s =>
      let r := s.spawn w.counter
      (⟨r.2.2, w.scenes.set i r.1⟩, some r.2.1)
    | none => (w, none)
  | WOp.despawn i n =>
    match w.scenes[i]? with
    | some s => (⟨w.counter, w.scenes.set i (s.despawn n)⟩, none)
    | none => (w, none)

/-- Run a sequence of world operations, collecting every issued node in
issue order. -/
def runOps {V : Type} (w : World V) : List WOp → World V × List Node
  | [] => (w, [])
  | op :: ops =>
    ((runOps (wstep w op).1 ops).1,
      (wstep w op).2.toList ++ (runOps (wstep w op).1 ops).2)

/-! ### Concrete scenes used by counterexamples and witnesses -/

/-- The root of the transform counterexample scene. -/
def c2root : Node := ⟨1⟩

/-- The intermediate node (no `LocalTransform`) of the transform
counterexample scene. -/
def c2child : Node := ⟨2⟩

/-- The grandchild (with an identity `LocalTransform`) of the transform
counterexample scene. -/
def c2gc : Node := ⟨3⟩

/-- The root's non-identity local transform: a pure translation by
`(1, 0, 0)`, exactly representable in `f32`. -/
def c2lt : LocalTransform := LocalTransform.fromPosition ⟨1, 0, 0⟩

/-- Root → child → grandchild chain in which only the root and the
grandchild carry a `LocalTransform`; hierarchy fields are exactly those
`spawn`/`set_parent` would build. -/
def c2scene : TScene :=
  { nodes := [c2root, c2child, c2gc]
    parents := [(c2child, c2root), (c2gc, c2child)]
    children := [(c2root, [c2child]), (c2child, [c2gc])]
    lt_table := (ComponentTable.new.add c2root c2lt).add c2gc LocalTransform.IDENTITY
    wt_table := ComponentTable.new }

/-- Parent `⟨1⟩` with child `⟨2⟩`, built by `spawn`/`set_parent`. -/
def c1scene : Scene Nat :=
  ((((Scene.new.spawn 1).1).spawn 2).1).setParent ⟨2⟩ ⟨1⟩

/-- A concrete reachable component table: `add ⟨1⟩ 5` then `add ⟨2⟩ 7`. -/
def c5table : ComponentTable Nat :=
  (ComponentTable.new.add ⟨1⟩ 5).add ⟨2⟩ 7

/-- A concrete scene for the despawn-event witness: nodes `⟨1⟩` (parent) and
`⟨2⟩` (child), both carrying a component of type key `0`. -/
def c6scene : Scene Nat :=
  ((((((Scene.new.spawn 1).1).spawn 2).1).setParent ⟨2⟩ ⟨1⟩).add 0 ⟨1⟩ 10).add 0 ⟨2⟩ 20

/-- A one-node scene (node `⟨1⟩`, no hierarchy) for the cycle-guard
witness. -/
def c4scene : Scene Nat := ⟨[⟨1⟩], [], [], [], []⟩

/-- A concrete world for the allocator witness: counter `1`, one scene
already holding node `⟨0⟩`. -/
def c10world : World Nat := ⟨1, [⟨[⟨0⟩], [], [], [], []⟩]⟩

/-- Spawn, despawn the node just issued, spawn again. -/
def c10ops : List WOp := [WOp.spawn 0, WOp.despawn 0 ⟨1⟩, WOp.spawn 0]

/-- The allocator's actual starting state: counter `1`
(`static ALLOCATOR: AtomicUsize = AtomicUsize::new(1)`) and one fresh
scene. -/
def c10wrapWorld : World Nat := ⟨1, [Scene.new]⟩

/-- Enough spawns to walk the 64-bit counter past its wrap-around. -/
def c10wrapOps : List WOp := List.replicate USIZE (WOp.spawn 0)

/-- One spawn more than `c10wrapOps`: the first reissued identity. -/
def c10dupOps : List WOp := List.replicate (USIZE + 1) (WOp.spawn 0)

/-! ### Lemmas and claim theorems -/

section AssocMap

variable {κ : Type} {α : Type} [DecidableEq κ]

theorem lookupA_eraseA (l : List (κ × α)) (q a : κ) :
    lookupA (eraseA l q) a = if a = q then none else lookupA l a := by
  induction l with
  | nil => simp [eraseA, lookupA]
  | cons p r ih =>
    by_cases hpq : p.1 = q
    · by_cases haq : a = q
      · subst haq
        simp [eraseA, hpq, ih]
      · have hpa : p.1 ≠ a := fun h => haq (h.symm.trans hpq)
        have hqa : q ≠ a := fun h => haq h.symm
        simp [eraseA, hpq, haq, ih, lookupA, hpa, hqa]
    · by_cases hpa : p.1 = a
      · have haq : a ≠ q := fun h => hpq (hpa.trans h)
        simp [eraseA, hpq, lookupA, hpa, haq]
      · simp [eraseA, hpq, lookupA, hpa, ih]

theorem lookupA_insertA (l : List (κ × α)) (q : κ) (v : α) (a : κ) :
    lookupA (insertA l q v) a = if a = q then some v else lookupA l a := by
  induction l with
  | nil =>
    by_cases haq : a = q
    · subst haq
      simp [insertA, lookupA]
    · have hqa : q ≠ a := fun h => haq h.symm
      simp [insertA, lookupA, haq, hqa]
  | cons p r ih =>
    by_cases hpq : p.1 = q
    · by_cases haq : a = q
      · simp [insertA, hpq, lookupA, haq]
      · have hqa : q ≠ a := fun h => haq h.symm
        have hpa : p.1 ≠ a := fun h => haq (h.symm.trans hpq)
        simp [insertA, hpq, lookupA, hqa, haq, hpa]
    · by_cases hpa : p.1 = a
      · have haq : a ≠ q := fun h => hpq (hpa.trans h)
        simp [insertA, hpq, lookupA, hpa, haq]
      · simp [insertA, hpq, lookupA, hpa, ih]

theorem lookupA_mem {l : List (κ × α)} {q : κ} {v : α}
    (h : lookupA l q = some v) : (q, v) ∈ l := by
  induction l with
  | nil => simp [lookupA] at h
  | cons p r ih =>
    obtain ⟨k, w⟩ := p
    by_cases hpq : k = q
    · subst hpq
      simp [lookupA] at h
      subst h
      exact List.mem_cons_self _ _
    · simp only [lookupA, hpq, if_false] at h
      exact List.mem_cons_of_mem _ (ih h)

theorem lookupA_eq_none_iff {l : List (κ × α)} {q : κ} :
    lookupA l q = none ↔ q ∉ l.map Prod.fst := by
  induction l with
  | nil => simp [lookupA]
  | cons p r ih =>
    by_cases hpq : p.1 = q
    · simp [lookupA, hpq]
    · have : q ≠ p.1 := fun h => hpq h.symm
      simp [lookupA, hpq, ih, this]

theorem lookupA_isSome_iff {l : List (κ × α)} {q : κ} :
    (lookupA l q).isSome ↔ q ∈ l.map Prod.fst := by
  induction l with
  | nil => simp [lookupA]
  | cons p r ih =>
    by_cases hpq : p.1 = q
    · simp [lookupA, hpq]
    · have hqp : q ≠ p.1 := fun h => hpq h.symm
      simp [lookupA, hpq, ih, hqp]

theorem eraseA_sublist (l : List (κ × α)) (q : κ) : (eraseA l q).Sublist l := by
  induction l with
  | nil => simp [eraseA]
  | cons p r ih =>
    by_cases hpq : p.1 = q
    · simp only [eraseA, if_pos hpq]
      exact ih.cons p
    · simp only [eraseA, if_neg hpq]
      exact ih.cons₂ p

theorem keys_eraseA_nodup {l : List (κ × α)} (q : κ)
    (h : (l.map Prod.fst).Nodup) : ((eraseA l q).map Prod.fst).Nodup :=
  ((eraseA_sublist l q).map Prod.fst).nodup h

theorem mem_keys_insertA {l : List (κ × α)} {q a : κ} {v : α}
    (h : a ∈ (insertA l q v).map Prod.fst) : a = q ∨ a ∈ l.map Prod.fst := by
  induction l with
  | nil =>
    simp only [insertA, List.map_cons, List.map_nil, List.mem_singleton] at h
    exact Or.inl h
  | cons p r ih =>
    by_cases hpq : p.1 = q
    · rw [show insertA (p :: r) q v = (q, v) :: r by
        simp only [insertA]; rw [if_pos hpq], List.map_cons] at h
      rcases List.mem_cons.1 h with h1 | h2
      · exact Or.inl h1
      · exact Or.inr (by rw [List.map_cons]; exact List.mem_cons_of_mem _ h2)
    · rw [show insertA (p :: r) q v = p :: insertA r q v by
        simp only [insertA]; rw [if_neg hpq], List.map_cons] at h
      rcases List.mem_cons.1 h with h1 | h2
      · exact Or.inr (by rw [List.map_cons]; exact List.mem_cons.2 (Or.inl h1))
      · rcases ih h2 with h' | h'
        · exact Or.inl h'
        · exact Or.inr (by rw [List.map_cons]; exact List.mem_cons_of_mem _ h')

theorem insertA_append_of_absent {l : List (κ × α)} {q : κ}
    (h : lookupA l q = none) (v : α) : insertA l q v = l ++ [(q, v)] := by
  induction l with
  | nil => rfl
  | cons p r ih =>
    by_cases hpq : p.1 = q
    · simp [lookupA, hpq] at h
    · simp only [lookupA, hpq, if_false] at h
      simp only [insertA, if_neg hpq]
      rw [ih h]
      rfl

theorem keys_insertA_nodup {l : List (κ × α)} (q : κ) (v : α)
    (h : (l.map Prod.fst).Nodup) : ((insertA l q v).map Prod.fst).Nodup := by
  induction l with
  | nil => simp [insertA]
  | cons p r ih =>
    rw [List.map_cons, List.nodup_cons] at h
    by_cases hpq : p.1 = q
    · rw [show insertA (p :: r) q v = (q, v) :: r by
        simp only [insertA]; rw [if_pos hpq], List.map_cons, List.nodup_cons]
      exact ⟨hpq ▸ h.1, h.2⟩
    · rw [show insertA (p :: r) q v = p :: insertA r q v by
        simp only [insertA]; rw [if_neg hpq], List.map_cons, List.nodup_cons]
      refine ⟨fun hmem => ?_, ih h.2⟩
      rcases mem_keys_insertA hmem with h' | h'
      · exact hpq h'
      · exact h.1 h'

end AssocMap

section TableWF

variable {V : Type}

theorem tableWF_new : TableWF (ComponentTable.new : ComponentTable V) := by
  constructor <;> simp [ComponentTable.new]

theorem TableWF.index_lt {t : ComponentTable V} (h : TableWF t) {n : Node}
    {i : Nat} (hl : lookupA t.node_indexes n = some i) : i < t.items.length := by
  have hmem : i ∈ t.node_indexes.map Prod.snd :=
    List.mem_map.2 ⟨(n, i), lookupA_mem hl, rfl⟩
  have := h.2.mem_iff.1 hmem
  exact List.mem_range.1 this

theorem TableWF.length_eq {t : ComponentTable V} (h : TableWF t) :
    t.node_indexes.length = t.items.length := by
  have := h.2.length_eq
  simpa using this

theorem tableWF_add {t : ComponentTable V} (h : TableWF t) (n : Node) (v : V) :
    TableWF (t.add n v) := by
  unfold ComponentTable.add
  cases hq : lookupA t.node_indexes n with
  | some w =>
    simpa using h
  | none =>
    have hnk : n ∉ t.node_indexes.map Prod.fst := lookupA_eq_none_iff.1 hq
    simp only [Option.isSome_none, Bool.false_eq_true, if_false]
    rw [insertA_append_of_absent hq]
    constructor
    · simp only [List.map_append]
      simp [List.nodup_append, h.1, hnk]
    · simp only [List.map_append, List.length_append]
      simp only [List.map_cons, List.map_nil, List.length_singleton]
      rw [List.range_succ]
      exact h.2.append (List.Perm.refl _)

theorem tableWF_set [DecidableEq V] {t : ComponentTable V} (h : TableWF t)
    (n : Node) (v : V) : TableWF (t.set n v) := by
  unfold ComponentTable.set
  cases hl : lookupA t.node_indexes n with
  | none => exact h
  | some i =>
    by_cases he : t.items[i]? = some v
    · simpa [he] using h
    · simp only [he, if_false]
      constructor
      · exact h.1
      · simpa using h.2

/-- With distinct keys, the map is a permutation of the looked-up entry
consed onto its erasure. -/
theorem perm_cons_eraseA {κ α : Type} [DecidableEq κ] {l : List (κ × α)}
    {q : κ} {v : α} (hnd : (l.map Prod.fst).Nodup)
    (hl : lookupA l q = some v) : l.Perm ((q, v) :: eraseA l q) := by
  induction l with
  | nil => simp [lookupA] at hl
  | cons p r ih =>
    rw [List.map_cons, List.nodup_cons] at hnd
    obtain ⟨k, w⟩ := p
    by_cases hkq : k = q
    · subst hkq
      simp [lookupA] at hl
      subst hl
      have hr : eraseA r k = r := by
        clear ih
        induction r with
        | nil => rfl
        | cons p' r' ih' =>
          rw [List.map_cons, List.mem_cons] at hnd
          have h1 : p'.1 ≠ k := by
            intro hh
            exact hnd.1 (Or.inl hh.symm)
          have h2 : k ∉ r'.map Prod.fst := fun hh => hnd.1 (Or.inr hh)
          simp only [eraseA, if_neg h1]
          rw [ih' ⟨h2, (List.nodup_cons.1 hnd.2).2⟩]
      simp [eraseA, hr]
    · simp only [lookupA, hkq, if_false] at hl
      have := ih hnd.2 hl
      simp only [eraseA, hkq, if_false]
      exact (this.cons (k, w)).trans (List.Perm.swap _ _ _)

/-- `eraseA` keeps a key untouched map when the key is absent. -/
theorem snd_perm_eraseA {l : List (Node × Nat)} {n : Node} {i : Nat}
    (hnd : (l.map Prod.fst).Nodup) (hl : lookupA l n = some i) :
    (l.map Prod.snd).Perm (i :: (eraseA l n).map Prod.snd) := by
  have := (perm_cons_eraseA hnd hl).map Prod.snd
  simpa using this

theorem fixMoved_keys (l : List (Node × Nat)) (moved idx : Nat) :
    (ComponentTable.fixMoved l moved idx).map Prod.fst = l.map Prod.fst := by
  induction l with
  | nil => rfl
  | cons p r ih =>
    by_cases hp : p.2 = moved
    · simp [ComponentTable.fixMoved, hp]
    · simp [ComponentTable.fixMoved, hp, ih]

theorem fixMoved_snd_perm {l : List (Node × Nat)} {moved : Nat} (idx : Nat)
    (hmem : moved ∈ l.map Prod.snd) :
    ((ComponentTable.fixMoved l moved idx).map Prod.snd).Perm
      (idx :: (l.map Prod.snd).erase moved) := by
  induction l with
  | nil => simp at hmem
  | cons p r ih =>
    by_cases hp : p.2 = moved
    · subst hp
      simp [ComponentTable.fixMoved]
    · rw [List.map_cons, List.mem_cons] at hmem
      rcases hmem with hmem | hmem
      · exact absurd hmem.symm hp
      · have hstep := (ih hmem).cons p.2
        simp only [ComponentTable.fixMoved, if_neg hp, List.map_cons]
        rw [show (p.2 :: r.map Prod.snd).erase moved
            = p.2 :: (r.map Prod.snd).erase moved by
          rw [List.erase_cons_tail]
          simp [hp]]
        exact hstep.trans (List.Perm.swap _ _ _)

theorem swapRemove_length {l : List V} {i : Nat} (h : i < l.length) :
    (ComponentTable.swapRemove l i).length = l.length - 1 := by
  unfold ComponentTable.swapRemove
  have hne : l ≠ [] := by
    intro hnil
    subst hnil
    simp at h
  cases hlast : l.getLast? with
  | none => exact absurd (List.getLast?_isSome.2 hne) (by simp [hlast])
  | some last => simp [h, List.length_dropLast]

theorem tableWF_remove {t : ComponentTable V}
    (h : TableWF t) (n : Node) : TableWF (t.remove n) := by
  unfold ComponentTable.remove
  cases hl : lookupA t.node_indexes n with
  | none => exact h
  | some index =>
    dsimp only
    have hlt : index < t.items.length := h.index_lt hl
    have hlen : (ComponentTable.swapRemove t.items index).length
        = t.items.length - 1 := swapRemove_length hlt
    have hkeysE : ((eraseA t.node_indexes n).map Prod.fst).Nodup :=
      keys_eraseA_nodup n h.1
    have hX : ((eraseA t.node_indexes n).map Prod.snd).Perm
        ((List.range t.items.length).erase index) := by
      have h1 := snd_perm_eraseA h.1 hl
      have h2 : (index :: (eraseA t.node_indexes n).map Prod.snd).Perm
          (List.range t.items.length) := h1.symm.trans h.2
      exact (List.cons_perm_iff_perm_erase.1 h2).2
    have hm1 : t.items.length = (t.items.length - 1) + 1 := by omega
    have hrange : List.range t.items.length
        = List.range (t.items.length - 1) ++ [t.items.length - 1] := by
      rw [hm1, List.range_succ, ← hm1]
    by_cases hcase : (ComponentTable.swapRemove t.items index).length = index
    · -- the removed slot was the tail: no repair needed
      have hidx : index = t.items.length - 1 := by omega
      have herase : (List.range t.items.length).erase index
          = List.range (t.items.length - 1) := by
        rw [hrange, hidx]
        rw [List.erase_append_right _ (by simp), List.erase_cons_head]
        simp
      refine ⟨?_, ?_⟩
      · rw [if_pos hcase]
        exact hkeysE
      · rw [if_pos hcase, hlen]
        have hX' := hX
        rw [herase] at hX'
        exact hX'
    · -- repair the key that pointed at the old tail slot
      have hidx : index ≠ t.items.length - 1 := by omega
      have hiltm : index < t.items.length - 1 := by omega
      have hmem : (ComponentTable.swapRemove t.items index).length
          ∈ (eraseA t.node_indexes n).map Prod.snd := by
        rw [hlen]
        refine hX.mem_iff.2 ?_
        refine (List.mem_erase_of_ne (by omega)).2 ?_
        exact List.mem_range.2 (by omega)
      refine ⟨?_, ?_⟩
      · rw [if_neg hcase, fixMoved_keys]
        exact hkeysE
      · rw [if_neg hcase, hlen]
        have h1 := fixMoved_snd_perm index hmem
        rw [hlen] at h1
        have h2 : (((eraseA t.node_indexes n).map Prod.snd).erase
            (t.items.length - 1)).Perm
            (((List.range t.items.length).erase index).erase
              (t.items.length - 1)) := hX.erase _
        have h3 : ((List.range t.items.length).erase index).erase
            (t.items.length - 1)
            = (List.range (t.items.length - 1)).erase index := by
          rw [hrange]
          rw [List.erase_append_left _ (List.mem_range.2 hiltm)]
          rw [List.erase_append_right _ ?notmem]
          · simp
          case notmem =>
            intro hmm
            exact (List.not_mem_range_self)
              ((List.erase_sublist _ _).mem hmm)
        rw [h3] at h2
        have h4 : (index :: (List.range (t.items.length - 1)).erase index).Perm
            (List.range (t.items.length - 1)) :=
          (List.perm_cons_erase (List.mem_range.2 hiltm)).symm
        exact h1.trans ((h2.cons index).trans h4)

theorem TableWF.snds_nodup {t : ComponentTable V} (h : TableWF t) :
    (t.node_indexes.map Prod.snd).Nodup :=
  h.2.nodup_iff.2 (List.nodup_range _)

theorem snd_inj_of_nodup {l : List (Node × Nat)}
    (hnd : (l.map Prod.snd).Nodup) {a b : Node} {i : Nat}
    (ha : (a, i) ∈ l) (hb : (b, i) ∈ l) : a = b := by
  induction l with
  | nil => simp at ha
  | cons p r ih =>
    rw [List.map_cons, List.nodup_cons] at hnd
    rcases List.mem_cons.1 ha with ha' | ha' <;>
      rcases List.mem_cons.1 hb with hb' | hb'
    · rw [← ha'] at hb'
      exact (Prod.mk.injEq _ _ _ _ ▸ hb'.symm).1.symm ▸ rfl
    · exact absurd (List.mem_map.2 ⟨(b, i), hb', by rw [← ha']⟩) hnd.1
    · exact absurd (List.mem_map.2 ⟨(a, i), ha', by rw [← hb']⟩) hnd.1
    · exact ih hnd.2 ha' hb'

theorem lookupA_eq_of_mem_keysNodup {l : List (Node × Nat)} {n : Node}
    {i : Nat} (hnd : (l.map Prod.fst).Nodup) (hm : (n, i) ∈ l) :
    lookupA l n = some i := by
  induction l with
  | nil => simp at hm
  | cons p r ih =>
    rw [List.map_cons, List.nodup_cons] at hnd
    rcases List.mem_cons.1 hm with hm' | hm'
    · rw [← hm']
      simp [lookupA]
    · have hpn : p.1 ≠ n := by
        intro hh
        exact hnd.1 (List.mem_map.2 ⟨(n, i), hm', by rw [hh]⟩)
      simp only [lookupA, hpn, if_false]
      exact ih hnd.2 hm'

/-- With distinct stored indices, the repair loop rewrites exactly the key
whose looked-up index is the moved one. -/
theorem fixMoved_lookup {l : List (Node × Nat)} {m : Node} {moved idx : Nat}
    (hnd : (l.map Prod.snd).Nodup) (hl : lookupA l m = some moved) :
    lookupA (ComponentTable.fixMoved l moved idx) m = some idx := by
  induction l with
  | nil => simp [lookupA] at hl
  | cons p r ih =>
    rw [List.map_cons, List.nodup_cons] at hnd
    by_cases hp : p.2 = moved
    · by_cases hpm : p.1 = m
      · simp [ComponentTable.fixMoved, hp, lookupA, hpm]
      · simp only [lookupA, hpm, if_false] at hl
        exact absurd
          (List.mem_map.2 ⟨(m, moved), lookupA_mem hl, by simp [hp]⟩) (hp ▸ hnd.1)
    · by_cases hpm : p.1 = m
      · subst hpm
        simp [lookupA] at hl
        exact absurd hl hp
      · simp only [lookupA, hpm, if_false] at hl
        simp only [ComponentTable.fixMoved, if_neg hp, lookupA, hpm, if_false]
        exact ih hnd.2 hl

theorem tReach_wf [DecidableEq V] {t : ComponentTable V} (h : TReach t) :
    TableWF t := by
  induction h with
  | new => exact tableWF_new
  | add t n v _ ih => exact tableWF_add ih n v
  | set t n v _ ih => exact tableWF_set ih n v
  | remove t n _ ih => exact tableWF_remove ih n

end TableWF

/-! ### List helpers -/

theorem getElem?_append_length {α : Type} (l : List α) (a : α) :
    (l ++ [a])[l.length]? = some a := by
  induction l with
  | nil => rfl
  | cons x r ih => simpa using ih

theorem set_append_length {α : Type} (l : List α) (a b : α) :
    (l ++ [a]).set l.length b = l ++ [b] := by
  induction l with
  | nil => rfl
  | cons x r ih => simpa using ih

theorem set_getElem_self {α : Type} {l : List α} {i : Nat} {a : α}
    (h : l[i]? = some a) : l.set i a = l := by
  induction l generalizing i with
  | nil => simp at h
  | cons x r ih =>
    cases i with
    | zero =>
      simp at h
      simp [h]
    | succ j =>
      simp at h
      simp [ih h]

/-! ### Component-table behaviour lemmas -/

section TableLemmas

variable {V : Type}

theorem table_add_absent {t : ComponentTable V} {n : Node} (v : V)
    (h : lookupA t.node_indexes n = none) :
    t.add n v = ⟨t.node_indexes ++ [(n, t.items.length)], t.items ++ [v],
      t.events ++ [ComponentEvent.Added n]⟩ := by
  unfold ComponentTable.add
  rw [h, insertA_append_of_absent h]
  rfl

theorem table_add_present {t : ComponentTable V} {n : Node} (v : V)
    (h : (lookupA t.node_indexes n).isSome) : t.add n v = t := by
  unfold ComponentTable.add
  rw [if_pos h]

theorem table_get_add_self {t : ComponentTable V} {n : Node} (v : V)
    (h : lookupA t.node_indexes n = none) : (t.add n v).get n = some v := by
  rw [table_add_absent v h]
  unfold ComponentTable.get
  have h1 : lookupA (t.node_indexes ++ [(n, t.items.length)]) n
      = some t.items.length := by
    rw [← insertA_append_of_absent h, lookupA_insertA]
    simp
  rw [h1]
  simpa using getElem?_append_length t.items v

theorem table_get_lookup_none {t : ComponentTable V} {n : Node}
    (h : lookupA t.node_indexes n = none) : t.get n = none := by
  unfold ComponentTable.get
  rw [h]
  rfl

theorem table_lookup_none_of_get_none {t : ComponentTable V} {n : Node}
    (hWF : TableWF t) (h : t.get n = none) :
    lookupA t.node_indexes n = none := by
  cases hl : lookupA t.node_indexes n with
  | none => rfl
  | some i =>
    have hlt : i < t.items.length := hWF.index_lt hl
    unfold ComponentTable.get at h
    rw [hl] at h
    simp only [Option.some_bind] at h
    rw [List.getElem?_eq_getElem hlt] at h
    simp at h

/-- `set` with the currently stored value is a complete no-op
(idempotent-set signal suppression). -/
theorem table_set_same {V : Type} [DecidableEq V] {t : ComponentTable V}
    {n : Node} {v : V} (h : t.get n = some v) : t.set n v = t := by
  unfold ComponentTable.get at h
  cases hl : lookupA t.node_indexes n with
  | none => rw [hl] at h; simp at h
  | some i =>
    rw [hl] at h
    simp only [Option.some_bind] at h
    unfold ComponentTable.set
    rw [hl]
    dsimp only
    rw [if_pos h]

theorem table_set_modified {V : Type} [DecidableEq V] {t : ComponentTable V}
    {n : Node} {v w : V} (hWF : TableWF t) (h : t.get n = some w)
    (hne : w ≠ v) :
    (t.set n v).get n = some v ∧
    (t.set n v).events = t.events ++ [ComponentEvent.Modified n] := by
  unfold ComponentTable.get at h
  cases hl : lookupA t.node_indexes n with
  | none => rw [hl] at h; simp at h
  | some i =>
    rw [hl] at h
    simp only [Option.some_bind] at h
    have hlt : i < t.items.length := hWF.index_lt hl
    have hcond : ¬ t.items[i]? = some v := by
      rw [h]
      simp
      intro he
      exact hne he
    unfold ComponentTable.set
    rw [hl]
    dsimp only
    rw [if_neg hcond]
    refine ⟨?_, rfl⟩
    unfold ComponentTable.get
    dsimp only
    rw [hl]
    simp only [Option.some_bind]
    exact List.getElem?_set_eq (by simpa using hlt)

end TableLemmas

/-! ### Scene component-registry behaviour lemmas -/

section SceneLemmas

variable {V : Type}

theorem scene_add_fresh [DecidableEq V] {s : Scene V} {τ : Nat} {n : Node}
    {v : V} (h : s.componentIndex τ = none) :
    s.add τ n v = { s with
      component_indexes :=
        insertA s.component_indexes τ s.component_tables.length
      component_tables :=
        s.component_tables ++ [ComponentTable.new.add n v] } := by
  unfold Scene.add
  rw [h]
  dsimp only
  unfold Scene.updTable
  rw [getElem?_append_length]
  dsimp only
  rw [set_append_length]

theorem scene_add_registered [DecidableEq V] {s : Scene V} {τ : Nat}
    {n : Node} {v : V} {i : Nat} (h : s.componentIndex τ = some i) :
    s.add τ n v = { s with
      component_tables :=
        Scene.updTable s.component_tables i (fun t => t.add n v) } := by
  unfold Scene.add
  rw [h]

theorem scene_set_registered [DecidableEq V] {s : Scene V} {τ : Nat}
    {n : Node} {v : V} {i : Nat} (h : s.componentIndex τ = some i) :
    s.set τ n v = { s with
      component_tables :=
        Scene.updTable s.component_tables i (fun t => t.set n v) } := by
  unfold Scene.set
  rw [h]

theorem scene_get_registered {s : Scene V} {τ : Nat} {i : Nat}
    {t : ComponentTable V} (h : s.componentIndex τ = some i)
    (ht : s.component_tables[i]? = some t) (n : Node) :
    s.get τ n = t.get n := by
  unfold Scene.get
  rw [h]
  dsimp only
  rw [ht]
  rfl

theorem scene_events_registered {s : Scene V} {τ : Nat} {i : Nat}
    {t : ComponentTable V} (h : s.componentIndex τ = some i)
    (ht : s.component_tables[i]? = some t) :
    s.events τ = t.events := by
  unfold Scene.events
  rw [h]
  dsimp only
  rw [ht]

/-- The table slot registered for a type is in bounds and well-formed under
the scene invariants. -/
theorem registered_table {s : Scene V} {τ : Nat} {i : Nat}
    (hreg : RegOK s) (h : s.componentIndex τ = some i) :
    ∃ t, s.component_tables[i]? = some t ∧ (GoodTables s → TableWF t) := by
  have hmem : (τ, i) ∈ s.component_indexes := lookupA_mem h
  have hlt : i < s.component_tables.length := hreg _ hmem
  refine ⟨s.component_tables[i], List.getElem?_eq_getElem hlt,
    fun hg => hg _ ?_⟩
  exact List.getElem_mem _

theorem scene_get_some {s : Scene V} {τ : Nat} {n : Node} {w : V}
    (h : s.get τ n = some w) :
    ∃ i t, s.componentIndex τ = some i ∧
      s.component_tables[i]? = some t ∧ t.get n = some w := by
  unfold Scene.get at h
  cases hidx : s.componentIndex τ with
  | none => rw [hidx] at h; simp at h
  | some i =>
    rw [hidx] at h
    dsimp only at h
    cases ht : s.component_tables[i]? with
    | none => rw [ht] at h; simp at h
    | some t =>
      rw [ht] at h
      exact ⟨i, t, rfl, ht, h⟩

theorem table_lookup_isSome_of_get_some {t : ComponentTable V} {n : Node}
    {w : V} (h : t.get n = some w) : (lookupA t.node_indexes n).isSome := by
  unfold ComponentTable.get at h
  cases hl : lookupA t.node_indexes n with
  | none => rw [hl] at h; simp at h
  | some i => simp

/-- Scene-level `add` is a complete no-op when the node already has an
entry in the registered table. -/
theorem scene_add_present [DecidableEq V] {s : Scene V} {τ : Nat} {n : Node}
    (v : V) {i : Nat} {t : ComponentTable V}
    (hidx : s.componentIndex τ = some i)
    (ht : s.component_tables[i]? = some t)
    (h : (lookupA t.node_indexes n).isSome) : s.add τ n v = s := by
  rw [scene_add_registered hidx]
  unfold Scene.updTable
  rw [ht]
  dsimp only
  rw [table_add_present v h, set_getElem_self ht]

/-- Scene-level `set` is a complete no-op when the stored value equals the
one being set. -/
theorem scene_set_same [DecidableEq V] {s : Scene V} {τ : Nat} {n : Node}
    {v : V} (h : s.get τ n = some v) : s.set τ n v = s := by
  obtain ⟨i, t, hidx, ht, hget⟩ := scene_get_some h
  rw [scene_set_registered hidx]
  unfold Scene.updTable
  rw [ht]
  dsimp only
  rw [table_set_same hget, set_getElem_self ht]

end SceneLemmas

/-! ### Claim theorems -/

/-- C1: the claim states that after `Scene::despawn(n)` the despawned node
`n` no longer appears in `get_children(p)` of its live former parent `p`.
The code violates it: `despawn_internal` removes `n`'s `parents` entry, so
the subsequent `remove_parent(n)` in `despawn` finds no parent and never
edits `p`'s child list.  Evaluating the embedded code on the concrete scene
(spawn `p = ⟨1⟩`, spawn `n = ⟨2⟩`, `set_parent(n, p)`, `despawn(n)`): the
parent is still live, `n` is despawned, yet `get_children(p)` still
contains `n` — a dangling hierarchy edge. -/
theorem despawn_leaves_dangling_child_edge :
    (c1scene.despawn ⟨2⟩).contains ⟨1⟩ ∧
    ¬ (c1scene.despawn ⟨2⟩).contains ⟨2⟩ ∧
    (c1scene.despawn ⟨2⟩).getChildren ⟨1⟩ = some [⟨2⟩] := by
  decide

/-- C2: the claim states that a node without a `LocalTransform` propagates
its parent's accumulated world matrix unchanged.  The code violates it:
`compute_world_transform_internal` propagates `WorldTransform::IDENTITY` in
the `None` arm.  On `c2scene` (root translated by `(1,0,0)`, transform-less
child, grandchild with the identity local transform) the grandchild's
computed world transform is the identity, whereas composition against the
root's matrix — what the claim mandates — is the distinct translation
matrix; the transform-less child itself correctly receives no computed
transform. -/
theorem transformless_node_resets_chain_to_identity :
    (computeWorldTransform c2scene).wt_table.get c2gc
      = some WorldTransform.IDENTITY ∧
    (computeWorldTransform c2scene).wt_table.get c2child = none ∧
    WorldTransform.new
      (Mat4.mul
        (Mat4.fromScaleRotationTranslation c2lt.scale c2lt.rotation
          c2lt.position)
        (Mat4.fromScaleRotationTranslation LocalTransform.IDENTITY.scale
          LocalTransform.IDENTITY.rotation LocalTransform.IDENTITY.position))
      ≠ WorldTransform.IDENTITY := by
  decide

/-- C3 counterexample: `Scene::add` performs no liveness check, so adding a
component to a node that was never spawned stores the value — a subsequent
`get` returns `Some(17)`, not `None` — and logs `Added`, refuting the
claimed no-op. -/
theorem add_on_dead_node_is_observable :
    ¬ (Scene.new (V := Nat)).contains ⟨5⟩ ∧
    ((Scene.new (V := Nat)).add 0 ⟨5⟩ 17).get 0 ⟨5⟩ = some 17 ∧
    ((Scene.new (V := Nat)).add 0 ⟨5⟩ 17).events 0
      = [ComponentEvent.Added ⟨5⟩] := by
  decide

/-- `Scene::add` on a node with no stored entry: stores the value and
appends exactly one `Added` event, regardless of liveness. -/
theorem scene_add_absent_spec {V : Type} [DecidableEq V] {s : Scene V}
    {τ : Nat} {n : Node} (v : V) (hreg : RegOK s) (hgood : GoodTables s)
    (habs : s.get τ n = none) :
    (s.add τ n v).get τ n = some v ∧
    (s.add τ n v).events τ = s.events τ ++ [ComponentEvent.Added n] := by
  cases hidx : s.componentIndex τ with
  | none =>
    rw [scene_add_fresh hidx]
    have hidx' : lookupA (insertA s.component_indexes τ
        s.component_tables.length) τ = some s.component_tables.length := by
      rw [lookupA_insertA]
      simp
    have hget : ((ComponentTable.new (V := V)).add n v).get n = some v :=
      table_get_add_self (t := ComponentTable.new) v rfl
    have hse : s.events τ = [] := by
      unfold Scene.events
      rw [hidx]
    constructor
    · rw [scene_get_registered (s := { s with
          component_indexes :=
            insertA s.component_indexes τ s.component_tables.length
          component_tables :=
            s.component_tables ++ [ComponentTable.new.add n v] })
        hidx' (getElem?_append_length _ _) n]
      exact hget
    · rw [scene_events_registered (s := { s with
          component_indexes :=
            insertA s.component_indexes τ s.component_tables.length
          component_tables :=
            s.component_tables ++ [ComponentTable.new.add n v] })
        hidx' (getElem?_append_length _ _)]
      rw [hse, table_add_absent (t := ComponentTable.new (V := V)) v rfl]
      rfl
  | some i =>
    obtain ⟨t, ht, hWFt⟩ := registered_table hreg hidx
    have hWF : TableWF t := hWFt hgood
    have hgetn : t.get n = none := by
      rw [scene_get_registered hidx ht n] at habs
      exact habs
    have hlook : lookupA t.node_indexes n = none :=
      table_lookup_none_of_get_none hWF hgetn
    have hlt : i < s.component_tables.length := by
      have hmem : (τ, i) ∈ s.component_indexes := lookupA_mem hidx
      exact hreg _ hmem
    rw [scene_add_registered hidx]
    have hupd : Scene.updTable s.component_tables i (fun t => t.add n v)
        = s.component_tables.set i (t.add n v) := by
      unfold Scene.updTable
      rw [ht]
    have ht' : (s.component_tables.set i (t.add n v))[i]? = some (t.add n v) :=
      List.getElem?_set_eq (by simpa using hlt)
    constructor
    · rw [hupd]
      rw [scene_get_registered (s := { s with
          component_tables := s.component_tables.set i (t.add n v) })
        hidx ht' n]
      exact table_get_add_self v hlook
    · rw [hupd]
      rw [scene_events_registered (s := { s with
          component_tables := s.component_tables.set i (t.add n v) })
        hidx ht']
      rw [scene_events_registered hidx ht]
      rw [table_add_absent v hlook]

/-- C3 amended: `Scene::add` ignores liveness entirely — for any node `n`
(live or not) with no stored entry for the type key, `add` stores the value
(a subsequent `get` returns `Some v`) and appends exactly one `Added(n)`
event. -/
theorem add_ignores_liveness (V : Type) [DecidableEq V] (s : Scene V)
    (τ : Nat) (n : Node) (v : V) (hreg : RegOK s) (hgood : GoodTables s)
    (habs : s.get τ n = none) :
    (s.add τ n v).get τ n = some v ∧
    (s.add τ n v).events τ = s.events τ ++ [ComponentEvent.Added n] :=
  scene_add_absent_spec v hreg hgood habs

/-- C3 amended witness at a concrete input: a freshly created scene (no
node `⟨5⟩` is live), add of value `17` under type key `0`. -/
theorem add_ignores_liveness_witness :
    ((Scene.new (V := Nat)).add 0 ⟨5⟩ 17).get 0 ⟨5⟩ = some 17 ∧
    ((Scene.new (V := Nat)).add 0 ⟨5⟩ 17).events 0
      = (Scene.new (V := Nat)).events 0 ++ [ComponentEvent.Added ⟨5⟩] :=
  add_ignores_liveness Nat Scene.new 0 ⟨5⟩ 17 (by decide) (by decide)
    (by decide)

/-- C7: `set` with a value equal to the stored one leaves the entire table
state unchanged (values and event log), and concretely `add(⟨1⟩, 17)` then
`set(⟨1⟩, 17)` leaves exactly `[Added ⟨1⟩]` in the log with no `Modified`
event. -/
theorem idempotent_set_suppresses_events :
    (∀ (V : Type) [DecidableEq V] (t : ComponentTable V) (n : Node) (v : V),
      t.get n = some v → t.set n v = t) ∧
    ((ComponentTable.new.add ⟨1⟩ (17 : Nat)).set ⟨1⟩ 17).events
      = [ComponentEvent.Added ⟨1⟩] :=
  ⟨fun V _ t n v h => table_set_same h, by decide⟩

/-- C7 witness at a concrete input: the stored value equals the one being
set, so the `set` is a complete no-op on the table. -/
theorem idempotent_set_suppresses_events_witness :
    (ComponentTable.new.add ⟨1⟩ (17 : Nat)).set ⟨1⟩ 17
      = ComponentTable.new.add ⟨1⟩ (17 : Nat) :=
  idempotent_set_suppresses_events.1 Nat
    (ComponentTable.new.add ⟨1⟩ 17) ⟨1⟩ 17 (by decide)

/-- C8: `set_or_add` (`add` then `set`) appends exactly one `Added(n)` and
no `Modified` when the node had no entry, exactly one `Modified(n)` when it
had an entry with a different value, and no event at all when the stored
value already equals the one being set; in every case a subsequent `get`
returns `Some v`. -/
theorem set_or_add_event_discipline (V : Type) [DecidableEq V] (s : Scene V)
    (τ : Nat) (n : Node) (v : V) (hreg : RegOK s) (hgood : GoodTables s) :
    (s.get τ n = none →
      (s.setOrAdd τ n v).events τ = s.events τ ++ [ComponentEvent.Added n] ∧
      (s.setOrAdd τ n v).get τ n = some v) ∧
    (∀ w, s.get τ n = some w → w ≠ v →
      (s.setOrAdd τ n v).events τ
        = s.events τ ++ [ComponentEvent.Modified n] ∧
      (s.setOrAdd τ n v).get τ n = some v) ∧
    (s.get τ n = some v →
      (s.setOrAdd τ n v).events τ = s.events τ ∧
      (s.setOrAdd τ n v).get τ n = some v) := by
  refine ⟨?_, ?_, ?_⟩
  · intro habs
    obtain ⟨hget, hev⟩ := scene_add_absent_spec v hreg hgood habs
    unfold Scene.setOrAdd
    rw [scene_set_same hget]
    exact ⟨hev, hget⟩
  · intro w hw hne
    obtain ⟨i, t, hidx, ht, hget⟩ := scene_get_some hw
    have hWF : TableWF t := hgood t (List.getElem?_mem ht)
    have hlookup : (lookupA t.node_indexes n).isSome :=
      table_lookup_isSome_of_get_some hget
    obtain ⟨hget', hev'⟩ := table_set_modified hWF hget hne
    unfold Scene.setOrAdd
    rw [scene_add_present v hidx ht hlookup]
    rw [scene_set_registered hidx]
    have hupd : Scene.updTable s.component_tables i (fun t => t.set n v)
        = s.component_tables.set i (t.set n v) := by
      unfold Scene.updTable
      rw [ht]
    have hlt : i < s.component_tables.length :=
      (List.getElem?_eq_some_iff.1 ht).1
    have ht' : (s.component_tables.set i (t.set n v))[i]? = some (t.set n v) :=
      List.getElem?_set_eq (by simpa using hlt)
    rw [hupd]
    constructor
    · rw [scene_events_registered (s := { s with
          component_tables := s.component_tables.set i (t.set n v) })
        hidx ht', scene_events_registered hidx ht]
      exact hev'
    · rw [scene_get_registered (s := { s with
          component_tables := s.component_tables.set i (t.set n v) })
        hidx ht' n]
      exact hget'
  · intro hv
    obtain ⟨i, t, hidx, ht, hget⟩ := scene_get_some hv
    have hlookup : (lookupA t.node_indexes n).isSome :=
      table_lookup_isSome_of_get_some hget
    unfold Scene.setOrAdd
    rw [scene_add_present v hidx ht hlookup, scene_set_same hv]
    exact ⟨rfl, hv⟩

/-- C8 witness at concrete inputs: a scene holding `17` for node `⟨1⟩`
under type key `0`, exercising the fresh-insert, value-changing, and
idempotent cases. -/
theorem set_or_add_event_discipline_witness :
    ((((Scene.new (V := Nat)).add 0 ⟨1⟩ 17).setOrAdd 0 ⟨1⟩ 18).events 0
       = ((Scene.new (V := Nat)).add 0 ⟨1⟩ 17).events 0
         ++ [ComponentEvent.Modified ⟨1⟩] ∧
      (((Scene.new (V := Nat)).add 0 ⟨1⟩ 17).setOrAdd 0 ⟨1⟩ 18).get 0 ⟨1⟩
       = some 18) ∧
    ((((Scene.new (V := Nat)).add 0 ⟨1⟩ 17).setOrAdd 0 ⟨1⟩ 17).events 0
       = ((Scene.new (V := Nat)).add 0 ⟨1⟩ 17).events 0 ∧
      (((Scene.new (V := Nat)).add 0 ⟨1⟩ 17).setOrAdd 0 ⟨1⟩ 17).get 0 ⟨1⟩
       = some 17) ∧
    (((Scene.new (V := Nat)).setOrAdd 0 ⟨2⟩ 9).events 0
       = (Scene.new (V := Nat)).events 0 ++ [ComponentEvent.Added ⟨2⟩] ∧
      ((Scene.new (V := Nat)).setOrAdd 0 ⟨2⟩ 9).get 0 ⟨2⟩ = some 9) :=
  ⟨(set_or_add_event_discipline Nat ((Scene.new (V := Nat)).add 0 ⟨1⟩ 17)
      0 ⟨1⟩ 18 (by decide) (by decide)).2.1 17 (by decide) (by decide),
    (set_or_add_event_discipline Nat ((Scene.new (V := Nat)).add 0 ⟨1⟩ 17)
      0 ⟨1⟩ 17 (by decide) (by decide)).2.2 (by decide),
    (set_or_add_event_discipline Nat (Scene.new (V := Nat))
      0 ⟨2⟩ 9 (by decide) (by decide)).1 (by decide)⟩

/-- C5: in every table state reachable by `add`/`set`/`remove`, the node →
index map is a bijection onto `0..items.len()` — every stored index is in
bounds, no two node keys share an index, every index is owned by some key —
and `remove`'s swap-removal relocates the key that pointed at the old tail
index to the freed slot. -/
theorem component_table_index_bijection :
    (∀ (V : Type) [DecidableEq V] (t : ComponentTable V), TReach t →
      (∀ n i, lookupA t.node_indexes n = some i → i < t.items.length) ∧
      (∀ n₁ n₂ i, lookupA t.node_indexes n₁ = some i →
        lookupA t.node_indexes n₂ = some i → n₁ = n₂) ∧
      (∀ i, i < t.items.length → ∃ n, lookupA t.node_indexes n = some i)) ∧
    (∀ (V : Type) [DecidableEq V] (t : ComponentTable V) (n m : Node)
      (i j : Nat), TReach t → lookupA t.node_indexes n = some i →
      lookupA t.node_indexes m = some j → m ≠ n → j + 1 = t.items.length →
      i ≠ j → lookupA (t.remove n).node_indexes m = some i) := by
  constructor
  · intro V _ t hreach
    have hWF : TableWF t := tReach_wf hreach
    refine ⟨fun n i hl => hWF.index_lt hl, ?_, ?_⟩
    · intro n₁ n₂ i h₁ h₂
      exact snd_inj_of_nodup hWF.snds_nodup (lookupA_mem h₁) (lookupA_mem h₂)
    · intro i hi
      have hmem : i ∈ t.node_indexes.map Prod.snd :=
        hWF.2.symm.mem_iff.1 (List.mem_range.2 hi)
      obtain ⟨p, hp, hpi⟩ := List.mem_map.1 hmem
      refine ⟨p.1, lookupA_eq_of_mem_keysNodup hWF.1 ?_⟩
      rw [← hpi]
      exact hp
  · intro V _ t n m i j hreach hn hm hmn hj hij
    have hWF : TableWF t := tReach_wf hreach
    have hlt : i < t.items.length := hWF.index_lt hn
    unfold ComponentTable.remove
    rw [hn]
    dsimp only
    have hmoved : (ComponentTable.swapRemove t.items i).length = j := by
      rw [swapRemove_length hlt]
      omega
    rw [hmoved, if_neg (by omega : ¬ j = i)]
    have hle : lookupA (eraseA t.node_indexes n) m = some j := by
      rw [lookupA_eraseA, if_neg hmn]
      exact hm
    have hnd : ((eraseA t.node_indexes n).map Prod.snd).Nodup :=
      ((eraseA_sublist t.node_indexes n).map Prod.snd).nodup hWF.snds_nodup
    exact fixMoved_lookup hnd hle

/-- C5 witness at a concrete input: the reachable table `c5table`
(`add ⟨1⟩ 5; add ⟨2⟩ 7`) has in-bounds indices, and removing `⟨1⟩`
relocates `⟨2⟩` (which owned the tail slot `1`) to the freed slot `0`. -/
theorem component_table_index_bijection_witness :
    0 < c5table.items.length ∧
    lookupA (c5table.remove ⟨1⟩).node_indexes ⟨2⟩ = some 0 := by
  have hreach : TReach c5table :=
    TReach.add (ComponentTable.new.add ⟨1⟩ 5) ⟨2⟩ 7
      (TReach.add ComponentTable.new ⟨1⟩ 5 TReach.new)
  exact ⟨(component_table_index_bijection.1 Nat c5table hreach).1 ⟨1⟩ 0
      (by decide),
    component_table_index_bijection.2 Nat c5table ⟨1⟩ ⟨2⟩ 0 1 hreach
      (by decide) (by decide) (by decide) (by decide) (by decide)⟩

/-- C9: for a type key with no registered table, `get` returns `None`,
`events` is empty, `set` and `remove` return the scene unchanged (no table
registration, no other state change), and a table is registered by a write
through `add`. -/
theorem unregistered_type_behaves_absent (V : Type) [DecidableEq V]
    (s : Scene V) (τ : Nat) (n : Node) (v : V)
    (h : s.componentIndex τ = none) :
    s.get τ n = none ∧ s.events τ = [] ∧ s.set τ n v = s ∧
    s.removeComponent τ n = s ∧
    ((s.add τ n v).componentIndex τ).isSome := by
  refine ⟨?_, ?_, ?_, ?_, ?_⟩
  · unfold Scene.get
    rw [h]
  · unfold Scene.events
    rw [h]
  · unfold Scene.set
    rw [h]
  · unfold Scene.removeComponent
    rw [h]
  · rw [scene_add_fresh h]
    show (lookupA (insertA s.component_indexes τ _) τ).isSome
    rw [lookupA_insertA]
    simp

/-- C9 witness at a concrete input: the fresh scene has no table registered
for type key `0`. -/
theorem unregistered_type_behaves_absent_witness :
    (Scene.new (V := Nat)).get 0 ⟨1⟩ = none ∧
    (Scene.new (V := Nat)).events 0 = [] ∧
    (Scene.new (V := Nat)).set 0 ⟨1⟩ 17 = Scene.new ∧
    (Scene.new (V := Nat)).removeComponent 0 ⟨1⟩ = Scene.new ∧
    (((Scene.new (V := Nat)).add 0 ⟨1⟩ 17).componentIndex 0).isSome :=
  unregistered_type_behaves_absent Nat Scene.new 0 ⟨1⟩ 17 rfl

/-! ### Despawn cascade events (C6) -/

section DespawnEvents

variable {V : Type}

theorem events_mono_remove (t : ComponentTable V) (n : Node) :
    ∀ e ∈ t.events, e ∈ (t.remove n).events := by
  intro e he
  unfold ComponentTable.remove
  cases hl : lookupA t.node_indexes n with
  | none => exact he
  | some i =>
    dsimp only
    exact List.mem_append_left _ he

theorem removed_mem_remove {t : ComponentTable V} {n : Node}
    (h : (lookupA t.node_indexes n).isSome) :
    ComponentEvent.Removed n ∈ (t.remove n).events := by
  unfold ComponentTable.remove
  cases hl : lookupA t.node_indexes n with
  | none => rw [hl] at h; simp at h
  | some i =>
    dsimp only
    exact List.mem_append_right _ (List.mem_singleton.2 rfl)

theorem table_lookup_isSome_of_get_isSome {t : ComponentTable V} {n : Node}
    (h : (t.get n).isSome) : (lookupA t.node_indexes n).isSome := by
  unfold ComponentTable.get at h
  cases hl : lookupA t.node_indexes n with
  | none => rw [hl] at h; simp at h
  | some i => simp

theorem fixMoved_lookup_ne {l : List (Node × Nat)} {m : Node}
    {j moved idx : Nat} (hl : lookupA l m = some j) (hj : j ≠ moved) :
    lookupA (ComponentTable.fixMoved l moved idx) m = some j := by
  induction l with
  | nil => simp [lookupA] at hl
  | cons p r ih =>
    by_cases hp : p.2 = moved
    · by_cases hpm : p.1 = m
      · subst hpm
        simp [lookupA] at hl
        rw [hl] at hp
        exact absurd hp hj
      · simp only [lookupA, hpm, if_false] at hl
        simp only [ComponentTable.fixMoved, if_pos hp, lookupA, hpm, if_false]
        exact hl
    · by_cases hpm : p.1 = m
      · subst hpm
        have hl' : p.2 = j := by simpa [lookupA] using hl
        simp only [ComponentTable.fixMoved, if_neg hp]
        simp [lookupA, hl']
      · simp only [lookupA, hpm, if_false] at hl
        simp only [ComponentTable.fixMoved, if_neg hp, lookupA, hpm, if_false]
        exact ih hl

/-- `remove n` keeps every other stored node's component accessible: the
swap-removal plus key repair never orphans an unrelated entry. -/
theorem get_remove_ne {t : ComponentTable V} (hWF : TableWF t) {m n : Node}
    (hmn : m ≠ n) (h : (t.get m).isSome) :
    ((t.remove n).get m).isSome := by
  have hlm : ∃ j, lookupA t.node_indexes m = some j :=
    Option.isSome_iff_exists.1 (table_lookup_isSome_of_get_isSome h)
  obtain ⟨j, hj⟩ := hlm
  have hjlt : j < t.items.length := hWF.index_lt hj
  unfold ComponentTable.remove
  cases hl : lookupA t.node_indexes n with
  | none => exact h
  | some i =>
    dsimp only
    have hilt : i < t.items.length := hWF.index_lt hl
    have hij : i ≠ j := by
      intro he
      subst he
      exact hmn (snd_inj_of_nodup hWF.snds_nodup (lookupA_mem hj)
        (lookupA_mem hl))
    have hlen : (ComponentTable.swapRemove t.items i).length
        = t.items.length - 1 := swapRemove_length hilt
    have hle : lookupA (eraseA t.node_indexes n) m = some j := by
      rw [lookupA_eraseA, if_neg hmn]
      exact hj
    have hndE : ((eraseA t.node_indexes n).map Prod.snd).Nodup :=
      ((eraseA_sublist t.node_indexes n).map Prod.snd).nodup hWF.snds_nodup
    unfold ComponentTable.get
    by_cases hc : (ComponentTable.swapRemove t.items i).length = i
    · rw [if_pos hc]
      dsimp only
      rw [hle]
      simp only [Option.some_bind]
      rw [List.getElem?_eq_getElem (by omega)]
      rfl
    · rw [if_neg hc]
      dsimp only
      by_cases hjm : j = (ComponentTable.swapRemove t.items i).length
      · rw [fixMoved_lookup hndE (by rw [hle, hjm])]
        simp only [Option.some_bind]
        rw [List.getElem?_eq_getElem (by omega)]
        rfl
      · rw [fixMoved_lookup_ne hle hjm]
        simp only [Option.some_bind]
        rw [List.getElem?_eq_getElem (by omega)]
        rfl

theorem desSim_refl (A : Scene V) : DesSim A A := by
  refine ⟨rfl, fun m hm => hm, ?_⟩
  intro i tA tB hA hB
  rw [hA] at hB
  cases hB
  exact ⟨fun e he => he, fun m hm => Or.inl hm, fun m hm hnm hg => absurd hm hnm⟩

theorem desSim_of_same {A B : Scene V} (hn : B.nodes = A.nodes)
    (ht : B.component_tables = A.component_tables) : DesSim A B := by
  refine ⟨by rw [ht], fun m hm => by rw [hn] at hm; exact hm, ?_⟩
  intro i tA tB hA hB
  rw [ht, hA] at hB
  cases hB
  refine ⟨fun e he => he, fun m hm => Or.inl hm, fun m hm hnm hg => ?_⟩
  rw [hn] at hnm
  exact absurd hm hnm

theorem desSim_trans {A B C : Scene V} (h1 : DesSim A B) (h2 : DesSim B C) :
    DesSim A C := by
  obtain ⟨hl1, hn1, ht1⟩ := h1
  obtain ⟨hl2, hn2, ht2⟩ := h2
  refine ⟨hl2.trans hl1, fun m hm => hn1 m (hn2 m hm), ?_⟩
  intro i tA tC hA hC
  have hiltB : i < B.component_tables.length := by
    have hiA : i < A.component_tables.length :=
      (List.getElem?_eq_some_iff.1 hA).1
    omega
  obtain ⟨tB, hB⟩ : ∃ tB, B.component_tables[i]? = some tB :=
    ⟨B.component_tables[i], List.getElem?_eq_getElem hiltB⟩
  obtain ⟨hev1, hep1, hrm1⟩ := ht1 i tA tB hA hB
  obtain ⟨hev2, hep2, hrm2⟩ := ht2 i tB tC hB hC
  refine ⟨fun e he => hev2 e (hev1 e he), ?_, ?_⟩
  · intro m hm
    rcases hep1 m hm with hB' | ⟨hmA, hmB⟩
    · rcases hep2 m hB' with hC' | ⟨hmB, hmC⟩
      · exact Or.inl hC'
      · exact Or.inr ⟨hn1 m hmB, hmC⟩
    · refine Or.inr ⟨hmA, fun hmC => hmB (hn2 m hmC)⟩
  · intro m hmA hmC hget
    by_cases hmB : m ∈ B.nodes
    · rcases hep1 m hget with hB' | ⟨_, hmB'⟩
      · exact hrm2 m hmB hmC hB'
      · exact absurd hmB hmB'
    · exact hev2 _ (hrm1 m hmA hmB hget)

theorem foldl_desSim (f : Scene V → Node → Scene V)
    (hf : ∀ s n, GoodTables s → DesSim s (f s n) ∧ GoodTables (f s n)) :
    ∀ (ch : List Node) (s : Scene V), GoodTables s →
      DesSim s (ch.foldl f s) ∧ GoodTables (ch.foldl f s) := by
  intro ch
  induction ch with
  | nil => intro s hg; exact ⟨desSim_refl s, hg⟩
  | cons c r ih =>
    intro s hg
    obtain ⟨h1, hg1⟩ := hf s c hg
    obtain ⟨h2, hg2⟩ := ih (f s c) hg1
    exact ⟨desSim_trans h1 h2, hg2⟩

theorem despawnInternal_desSim :
    ∀ (fuel : Nat) (s : Scene V) (n : Node), GoodTables s →
      DesSim s (Scene.despawnInternal fuel s n) ∧
        GoodTables (Scene.despawnInternal fuel s n) := by
  intro fuel
  induction fuel with
  | zero => intro s n hg; exact ⟨desSim_refl s, hg⟩
  | succ k ih =>
    intro s n hg
    unfold Scene.despawnInternal
    by_cases hmem : n ∈ s.nodes
    · rw [if_pos hmem]
      dsimp only
      set s1 : Scene V := { s with
        nodes := s.nodes.filter (fun m => decide (m ≠ n))
        children := eraseA s.children n } with hs1
      set ch := (lookupA s.children n).getD [] with hch
      obtain ⟨hsim12, hg2⟩ :=
        foldl_desSim (Scene.despawnInternal k) ih ch s1 hg
      set s2 := ch.foldl (Scene.despawnInternal k) s1 with hs2
      obtain ⟨h12len, h12n, h12t⟩ := hsim12
      have hnotin1 : n ∉ s1.nodes := by
        rw [hs1]
        simp
      constructor
      · -- DesSim s s3
        refine ⟨?_, ?_, ?_⟩
        · simpa using h12len
        · intro m hm
          simp only [List.mem_map] at hm
          have hm2 : m ∈ s2.nodes := hm
          have hm1 : m ∈ s1.nodes := h12n m hm2
          rw [hs1] at hm1
          exact (List.mem_filter.1 hm1).1
        · intro i tA tB hA hB
          simp only [List.getElem?_map] at hB
          obtain ⟨t2, h2, hBdef⟩ :
              ∃ t2, s2.component_tables[i]? = some t2 ∧
                tB = t2.remove n := by
            cases h2 : s2.component_tables[i]? with
            | none => rw [h2] at hB; cases hB
            | some t2 =>
              rw [h2] at hB
              cases hB
              exact ⟨t2, rfl, rfl⟩
          have hA1 : s1.component_tables[i]? = some tA := hA
          obtain ⟨hev, hep, hrm⟩ := h12t i tA t2 hA1 h2
          have hWF2 : TableWF t2 := hg2 t2 (List.getElem?_mem h2)
          subst hBdef
          refine ⟨?_, ?_, ?_⟩
          · intro e he
            exact events_mono_remove t2 n e (hev e he)
          · intro m hm
            rcases hep m hm with ht2' | ⟨hm1, hm2⟩
            · by_cases hmn : m = n
              · subst hmn
                refine Or.inr ⟨hmem, fun hm3 => ?_⟩
                exact hnotin1 (h12n m hm3)
              · exact Or.inl (get_remove_ne hWF2 hmn ht2')
            · refine Or.inr ⟨?_, fun hm3 => hm2 hm3⟩
              rw [hs1] at hm1
              exact (List.mem_filter.1 hm1).1
          · intro m hmA hmB hget
            by_cases hmn : m = n
            · subst hmn
              rcases hep m hget with ht2' | ⟨hm1, _⟩
              · exact removed_mem_remove
                  (table_lookup_isSome_of_get_isSome ht2')
              · exact absurd hm1 hnotin1
            · have hm1 : m ∈ s1.nodes := by
                rw [hs1]
                refine List.mem_filter.2 ⟨hmA, by simp [hmn]⟩
              have hm2 : m ∉ s2.nodes := hmB
              exact events_mono_remove t2 n _ (hrm m hm1 hm2 hget)
      · -- GoodTables s3
        intro t' ht'
        simp only [List.mem_map] at ht'
        obtain ⟨t2, ht2, hdef⟩ := ht'
        rw [← hdef]
        exact tableWF_remove (hg2 t2 ht2) n
    · rw [if_neg hmem]
      exact ⟨desSim_refl s, hg⟩

theorem removeParent_fields (s : Scene V) (n : Node) :
    (s.removeParent n).nodes = s.nodes ∧
    (s.removeParent n).component_indexes = s.component_indexes ∧
    (s.removeParent n).component_tables = s.component_tables := by
  unfold Scene.removeParent
  cases hl : lookupA s.parents n with
  | none => exact ⟨rfl, rfl, rfl⟩
  | some q =>
    dsimp only
    cases hc : lookupA s.children q with
    | none => exact ⟨rfl, rfl, rfl⟩
    | some ch => exact ⟨rfl, rfl, rfl⟩

theorem despawnInternal_indexes :
    ∀ (fuel : Nat) (s : Scene V) (n : Node),
      (Scene.despawnInternal fuel s n).component_indexes
        = s.component_indexes := by
  intro fuel
  induction fuel with
  | zero => intro s n; rfl
  | succ k ih =>
    intro s n
    unfold Scene.despawnInternal
    by_cases hmem : n ∈ s.nodes
    · rw [if_pos hmem]
      dsimp only
      have haux : ∀ (ch : List Node) (s0 : Scene V),
          (ch.foldl (Scene.despawnInternal k) s0).component_indexes
            = s0.component_indexes := by
        intro ch
        induction ch with
        | nil => intro s0; rfl
        | cons c r ihr =>
          intro s0
          rw [List.foldl_cons, ihr, ih]
      rw [haux]
    · rw [if_neg hmem]

theorem despawn_desSim (s : Scene V) (n : Node) (hg : GoodTables s) :
    DesSim s (s.despawn n) := by
  unfold Scene.despawn
  by_cases hmem : n ∈ s.nodes
  · rw [if_pos hmem]
    obtain ⟨h1, _⟩ := despawnInternal_desSim s.nodes.length s n hg
    refine desSim_trans h1 (desSim_of_same ?_ ?_)
    · exact (removeParent_fields _ n).1
    · exact (removeParent_fields _ n).2.2
  · rw [if_neg hmem]
    exact desSim_refl s

theorem despawn_indexes (s : Scene V) (n : Node) :
    (s.despawn n).component_indexes = s.component_indexes := by
  unfold Scene.despawn
  by_cases hmem : n ∈ s.nodes
  · rw [if_pos hmem]
    rw [(removeParent_fields _ n).2.1, despawnInternal_indexes]
  · rw [if_neg hmem]

theorem despawnInternal_nodes_sub :
    ∀ (fuel : Nat) (s : Scene V) (n m : Node),
      m ∈ (Scene.despawnInternal fuel s n).nodes → m ∈ s.nodes := by
  intro fuel
  induction fuel with
  | zero => intro s n m hm; exact hm
  | succ k ih =>
    intro s n m hm
    unfold Scene.despawnInternal at hm
    by_cases hmem : n ∈ s.nodes
    · rw [if_pos hmem] at hm
      dsimp only at hm
      have haux : ∀ (ch : List Node) (s0 : Scene V),
          m ∈ (ch.foldl (Scene.despawnInternal k) s0).nodes →
            m ∈ s0.nodes := by
        intro ch
        induction ch with
        | nil => intro s0 h; exact h
        | cons c r ihr =>
          intro s0 h
          rw [List.foldl_cons] at h
          exact ih _ _ _ (ihr _ h)
      have hm1 := haux _ _ hm
      exact (List.mem_filter.1 hm1).1
    · rw [if_neg hmem] at hm
      exact hm

theorem despawn_removes_argument {s : Scene V} {n : Node}
    (hmem : n ∈ s.nodes) : n ∉ (s.despawn n).nodes := by
  unfold Scene.despawn
  rw [if_pos hmem, (removeParent_fields _ n).1]
  obtain ⟨k, hk⟩ : ∃ k, s.nodes.length = k + 1 := by
    cases hlen : s.nodes.length with
    | zero =>
      rw [List.length_eq_zero] at hlen
      rw [hlen] at hmem
      simp at hmem
    | succ k => exact ⟨k, rfl⟩
  rw [hk]
  unfold Scene.despawnInternal
  rw [if_pos hmem]
  dsimp only
  intro hn
  have haux : ∀ (ch : List Node) (s0 : Scene V),
      n ∈ (ch.foldl (Scene.despawnInternal k) s0).nodes → n ∈ s0.nodes := by
    intro ch
    induction ch with
    | nil => intro s0 h; exact h
    | cons c r ihr =>
      intro s0 h
      rw [List.foldl_cons] at h
      exact despawnInternal_nodes_sub k _ _ _ (ihr _ h)
  have hn1 := haux _ _ hn
  rw [List.mem_filter] at hn1
  simp at hn1

end DespawnEvents

/-- C6: cascading despawn is observable through the event log — every node
the call despawns (the argument and the live descendants reached through
the child lists) gets a `Removed` event appended to the log of every
component type it held, through the very same per-table `remove` an
explicit `remove::<T>()` call uses; on a leaf node the table states after
`despawn` are exactly those of an explicit per-table `remove`. -/
theorem despawn_cascade_logs_removed (V : Type) (s : Scene V) (n : Node)
    (hgood : GoodTables s) :
    (∀ m, m ∈ s.nodes → m ∉ (s.despawn n).nodes → ∀ τ,
      (s.get τ m).isSome →
      ComponentEvent.Removed m ∈ (s.despawn n).events τ) ∧
    (n ∈ s.nodes → n ∉ (s.despawn n).nodes) ∧
    (n ∈ s.nodes → lookupA s.children n = none →
      (s.despawn n).component_tables
        = s.component_tables.map (fun t => t.remove n)) := by
  refine ⟨?_, fun h => despawn_removes_argument h, ?_⟩
  · intro m hmA hmB τ hget
    obtain ⟨w, hw⟩ := Option.isSome_iff_exists.1 hget
    obtain ⟨i, t, hidx, ht, htget⟩ := scene_get_some hw
    obtain ⟨hlen, hnsub, htab⟩ := despawn_desSim s n hgood
    have hiA : i < s.component_tables.length :=
      (List.getElem?_eq_some_iff.1 ht).1
    have hiB : i < (s.despawn n).component_tables.length := by omega
    have hB : (s.despawn n).component_tables[i]?
        = some (s.despawn n).component_tables[i] :=
      List.getElem?_eq_getElem hiB
    obtain ⟨hev, hep, hrm⟩ := htab i t _ ht hB
    have hremoved := hrm m hmA hmB (by rw [htget]; rfl)
    have hidx' : (s.despawn n).componentIndex τ = some i := by
      show lookupA (s.despawn n).component_indexes τ = some i
      rw [despawn_indexes]
      exact hidx
    rw [scene_events_registered (s := s.despawn n) hidx' hB]
    exact hremoved
  · intro hmem hch
    unfold Scene.despawn
    rw [if_pos hmem, (removeParent_fields _ n).2.2]
    obtain ⟨k, hk⟩ : ∃ k, s.nodes.length = k + 1 := by
      cases hlen : s.nodes.length with
      | zero =>
        rw [List.length_eq_zero] at hlen
        rw [hlen] at hmem
        simp at hmem
      | succ k => exact ⟨k, rfl⟩
    rw [hk]
    unfold Scene.despawnInternal
    rw [if_pos hmem]
    dsimp only
    simp only [hch, Option.getD_none, List.foldl_nil]

/-- C6 witness at a concrete input: despawning the parent `⟨1⟩` of
`c6scene` cascades into child `⟨2⟩`; both held a component of type key `0`,
and the child's `Removed` event appears in that type's log. -/
theorem despawn_cascade_logs_removed_witness :
    ComponentEvent.Removed ⟨2⟩ ∈ (c6scene.despawn ⟨1⟩).events 0 ∧
    (⟨1⟩ : Node) ∉ (c6scene.despawn ⟨1⟩).nodes :=
  ⟨(despawn_cascade_logs_removed Nat c6scene ⟨1⟩ (by decide)).1 ⟨2⟩
      (by decide) (by decide) 0 (by decide),
    (despawn_cascade_logs_removed Nat c6scene ⟨1⟩ (by decide)).2.1
      (by decide)⟩

/-! ### Hierarchy acyclicity (C4) -/

section Hierarchy

variable {V : Type}

theorem eraseA_eq_self_of_lookup_none {κ α : Type} [DecidableEq κ]
    {l : List (κ × α)} {q : κ} (h : lookupA l q = none) : eraseA l q = l := by
  induction l with
  | nil => rfl
  | cons p r ih =>
    by_cases hpq : p.1 = q
    · simp [lookupA, hpq] at h
    · simp only [lookupA, hpq, if_false] at h
      simp [eraseA, hpq, ih h]

theorem acyclic_nil : Acyclic ([] : List (Node × Node)) := by
  have hstep : ∀ a b : Node, ¬ pstep ([] : List (Node × Node)) a b := by
    intro a b h
    simp [pstep, lookupA] at h
  intro n h
  cases h with
  | single hs => exact hstep _ _ hs
  | tail _ hs => exact hstep _ _ hs

theorem acyclic_mono {l l' : List (Node × Node)}
    (hsub : ∀ a b, pstep l' a b → pstep l a b) (h : Acyclic l) :
    Acyclic l' :=
  fun n hn => h n (Relation.TransGen.mono hsub hn)

theorem chainHas_sound {l : List (Node × Node)} :
    ∀ (fuel : Nat) (cur tgt : Node),
      Scene.chainHas l fuel cur tgt = true →
      Relation.ReflTransGen (pstep l) cur tgt := by
  intro fuel
  induction fuel with
  | zero =>
    intro cur tgt h
    simp [Scene.chainHas] at h
  | succ k ih =>
    intro cur tgt h
    unfold Scene.chainHas at h
    by_cases hct : cur = tgt
    · subst hct
      exact Relation.ReflTransGen.refl
    · rw [if_neg hct] at h
      cases hl : lookupA l cur with
      | none => rw [hl] at h; simp at h
      | some p =>
        rw [hl] at h
        exact Relation.ReflTransGen.head hl (ih p tgt h)

theorem chainHas_complete_aux {l : List (Node × Node)} {tgt : Node}
    (hnd : (l.map Prod.fst).Nodup) (hacyc : Acyclic l) :
    ∀ (k : Nat) (seen : List Node) (cur : Node),
      seen.Nodup → (∀ x ∈ seen, x ∈ l.map Prod.fst) →
      (∀ x ∈ seen, Relation.TransGen (pstep l) x cur) →
      l.length + 1 - seen.length = k →
      Relation.ReflTransGen (pstep l) cur tgt →
      Scene.chainHas l k cur tgt = true := by
  intro k
  induction k with
  | zero =>
    intro seen cur hsnd hsub htg hk _
    exfalso
    have hsp : seen.Subperm (l.map Prod.fst) :=
      hsnd.subperm (fun x hx => hsub x hx)
    have hle : seen.length ≤ l.length := by
      have := hsp.length_le
      simpa using this
    omega
  | succ k ih =>
    intro seen cur hsnd hsub htg hk hrt
    unfold Scene.chainHas
    by_cases hct : cur = tgt
    · rw [if_pos hct]
    · rw [if_neg hct]
      rcases Relation.ReflTransGen.cases_head hrt with heq | ⟨p, hstep, hrest⟩
      · exact absurd heq hct
      · have hlk : lookupA l cur = some p := hstep
        rw [hlk]
        refine ih (cur :: seen) p ?_ ?_ ?_ ?_ hrest
        · rw [List.nodup_cons]
          refine ⟨fun hcur => ?_, hsnd⟩
          exact hacyc cur (htg cur hcur)
        · intro x hx
          rcases List.mem_cons.1 hx with hx' | hx'
          · subst hx'
            exact lookupA_isSome_iff.1 (by rw [hlk]; rfl)
          · exact hsub x hx'
        · intro x hx
          rcases List.mem_cons.1 hx with hx' | hx'
          · subst hx'
            exact Relation.TransGen.single hstep
          · exact (htg x hx').tail hstep
        · simp only [List.length_cons]
          omega

theorem chainHas_complete {l : List (Node × Node)} {tgt cur : Node}
    (hnd : (l.map Prod.fst).Nodup) (hacyc : Acyclic l)
    (h : Relation.ReflTransGen (pstep l) cur tgt) :
    Scene.chainHas l (l.length + 1) cur tgt = true :=
  chainHas_complete_aux hnd hacyc (l.length + 1) [] cur (by simp)
    (by simp) (by simp) (by simp) h

/-- Characterisation of the parent map after `set_parent`'s
detach-and-attach (`remove_parent` then `insert`). -/
theorem pstep_update_iff {l : List (Node × Node)} {n p a b : Node} :
    pstep (insertA (eraseA l n) n p) a b
      ↔ ((a = n ∧ b = p) ∨ (a ≠ n ∧ pstep l a b)) := by
  unfold pstep
  rw [lookupA_insertA, lookupA_eraseA]
  by_cases han : a = n
  · simp [han]
    exact eq_comm
  · simp [han]

theorem new_chain_to_n_in_old {l : List (Node × Node)} {n p : Node} :
    ∀ a, Relation.ReflTransGen (pstep (insertA (eraseA l n) n p)) a n →
      Relation.ReflTransGen (pstep l) a n := by
  intro a h
  induction h using Relation.ReflTransGen.head_induction_on with
  | refl => exact Relation.ReflTransGen.refl
  | head hstep _ ih =>
    rename_i x c _
    by_cases hxn : x = n
    · subst hxn
      exact Relation.ReflTransGen.refl
    · rcases pstep_update_iff.1 hstep with ⟨h1, _⟩ | ⟨_, h2⟩
      · exact absurd h1 hxn
      · exact ih.head h2

theorem old_chain_to_n_in_new {l : List (Node × Node)} {n p : Node} :
    ∀ a, Relation.ReflTransGen (pstep l) a n →
      Relation.ReflTransGen (pstep (insertA (eraseA l n) n p)) a n := by
  intro a h
  induction h using Relation.ReflTransGen.head_induction_on with
  | refl => exact Relation.ReflTransGen.refl
  | head hstep _ ih =>
    rename_i x c _
    by_cases hxn : x = n
    · subst hxn
      exact Relation.ReflTransGen.refl
    · exact ih.head (pstep_update_iff.2 (Or.inr ⟨hxn, hstep⟩))

theorem transGen_update_decomp {l : List (Node × Node)} {n p : Node} :
    ∀ a b, Relation.TransGen (pstep (insertA (eraseA l n) n p)) a b →
      Relation.TransGen (pstep l) a b ∨
        (Relation.ReflTransGen (pstep l) a n ∧
          Relation.ReflTransGen (pstep (insertA (eraseA l n) n p)) p b) := by
  intro a b h
  induction h with
  | single hstep =>
    rcases pstep_update_iff.1 hstep with ⟨h1, h2⟩ | ⟨_, h2⟩
    · subst h1
      subst h2
      exact Or.inr ⟨Relation.ReflTransGen.refl, Relation.ReflTransGen.refl⟩
    · exact Or.inl (Relation.TransGen.single h2)
  | tail _ hbc ih =>
    rcases pstep_update_iff.1 hbc with ⟨h1, h2⟩ | ⟨_, h2⟩
    · subst h1
      subst h2
      refine Or.inr ⟨?_, Relation.ReflTransGen.refl⟩
      rcases ih with ihl | ⟨ih1, _⟩
      · exact ihl.to_reflTransGen
      · exact ih1
    · rcases ih with ihl | ⟨ih1, ih2⟩
      · exact Or.inl (ihl.tail h2)
      · exact Or.inr ⟨ih1, ih2.tail hbc⟩

/-- Inserting the guarded edge `n → p` into the detached map preserves
acyclicity when `n` is not in `p`'s ancestor chain. -/
theorem update_acyclic {l : List (Node × Node)} {n p : Node}
    (hacyc : Acyclic l)
    (hnochain : ¬ Relation.ReflTransGen (pstep l) p n) :
    Acyclic (insertA (eraseA l n) n p) := by
  intro x hx
  rcases transGen_update_decomp x x hx with hl | ⟨h1, h2⟩
  · exact hacyc x hl
  · exact hnochain (new_chain_to_n_in_old p
      (h2.trans (old_chain_to_n_in_new x h1)))

theorem removeParent_parents (s : Scene V) (n : Node) :
    (s.removeParent n).parents = eraseA s.parents n := by
  unfold Scene.removeParent
  cases hl : lookupA s.parents n with
  | none =>
    dsimp only
    rw [eraseA_eq_self_of_lookup_none hl]
  | some q =>
    dsimp only
    cases hc : lookupA s.children q with
    | none => rfl
    | some ch => rfl

theorem psub_refl (A : Scene V) : PSub A A :=
  ⟨fun _ _ h => h, fun h => h⟩

theorem psub_trans {A B C : Scene V} (h1 : PSub A B) (h2 : PSub B C) :
    PSub A C :=
  ⟨fun a b h => h1.1 a b (h2.1 a b h), fun h => h2.2 (h1.2 h)⟩

theorem psub_of_parents_eq {A B : Scene V} (h : B.parents = A.parents) :
    PSub A B :=
  ⟨fun a b hh => by rw [← h]; exact hh, fun hh => by rw [h]; exact hh⟩

theorem psub_of_parents_erase {A B : Scene V} {n : Node}
    (h : B.parents = eraseA A.parents n) : PSub A B := by
  constructor
  · intro a b hh
    rw [h] at hh
    unfold pstep at hh ⊢
    rw [lookupA_eraseA] at hh
    by_cases han : a = n
    · rw [if_pos han] at hh
      cases hh
    · rw [if_neg han] at hh
      exact hh
  · intro hh
    rw [h]
    exact keys_eraseA_nodup n hh

theorem foldl_psub (f : Scene V → Node → Scene V)
    (hf : ∀ s n, PSub s (f s n)) :
    ∀ (ch : List Node) (s : Scene V), PSub s (ch.foldl f s) := by
  intro ch
  induction ch with
  | nil => intro s; exact psub_refl s
  | cons c r ih => intro s; exact psub_trans (hf s c) (ih (f s c))

theorem despawnInternal_psub :
    ∀ (fuel : Nat) (s : Scene V) (n : Node),
      PSub s (Scene.despawnInternal fuel s n) := by
  intro fuel
  induction fuel with
  | zero => intro s n; exact psub_refl s
  | succ k ih =>
    intro s n
    unfold Scene.despawnInternal
    by_cases hmem : n ∈ s.nodes
    · rw [if_pos hmem]
      dsimp only
      have h1 : PSub s ({ s with
          nodes := s.nodes.filter (fun m => decide (m ≠ n))
          children := eraseA s.children n } : Scene V) :=
        psub_of_parents_eq rfl
      have h2 := foldl_psub (Scene.despawnInternal k) ih
        ((lookupA s.children n).getD [])
        ({ s with
            nodes := s.nodes.filter (fun m => decide (m ≠ n))
            children := eraseA s.children n } : Scene V)
      refine psub_trans (psub_trans h1 h2) ?_
      exact psub_of_parents_erase rfl
    · rw [if_neg hmem]
      exact psub_refl s

theorem despawn_psub (s : Scene V) (n : Node) : PSub s (s.despawn n) := by
  unfold Scene.despawn
  by_cases hmem : n ∈ s.nodes
  · rw [if_pos hmem]
    exact psub_trans (despawnInternal_psub _ s n)
      (psub_of_parents_erase (removeParent_parents _ n))
  · rw [if_neg hmem]
    exact psub_refl s

/-- `set_parent` preserves key distinctness and acyclicity of the parent
map: rejected calls change nothing, and an accepted call inserts an edge
whose target chain provably avoids the node. -/
theorem setParent_preserves_inv {s : Scene V} (n p : Node)
    (hnd : (s.parents.map Prod.fst).Nodup) (hacyc : Acyclic s.parents) :
    ((s.setParent n p).parents.map Prod.fst).Nodup ∧
      Acyclic (s.setParent n p).parents := by
  unfold Scene.setParent
  by_cases hlive : n ∈ s.nodes ∧ p ∈ s.nodes
  · rw [if_pos hlive]
    by_cases hch :
        Scene.chainHas s.parents (s.parents.length + 1) p n = true
    · rw [if_pos hch]
      exact ⟨hnd, hacyc⟩
    · rw [if_neg hch]
      dsimp only
      rw [removeParent_parents]
      constructor
      · exact keys_insertA_nodup _ _ (keys_eraseA_nodup _ hnd)
      · refine update_acyclic hacyc fun hchain => ?_
        exact hch (chainHas_complete hnd hacyc hchain)
  · rw [if_neg hlive]
    exact ⟨hnd, hacyc⟩

theorem hReach_inv {s : Scene V} {c : Nat} (h : HReach s c) :
    (s.parents.map Prod.fst).Nodup ∧ Acyclic s.parents := by
  induction h with
  | init c => exact ⟨by simp [Scene.new], acyclic_nil⟩
  | spawn _ ih => exact ih
  | despawn n hr ih =>
    rename_i s' c'
    have hps := despawn_psub s' n
    exact ⟨hps.2 ih.1, acyclic_mono hps.1 ih.2⟩
  | setParent n p _ ih => exact setParent_preserves_inv n p ih.1 ih.2
  | removeParent n hr ih =>
    rename_i s' c'
    have hps : PSub s' (s'.removeParent n) :=
      psub_of_parents_erase (removeParent_parents s' n)
    exact ⟨hps.2 ih.1, acyclic_mono hps.1 ih.2⟩

end Hierarchy

/-- C4: `set_parent(node, parent)` is a complete no-op whenever `node`
occurs in the ancestor chain of `parent` (including `parent = node`), and
consequently the parent-of relation of every scene state reachable by
spawn/despawn/set_parent/remove_parent is acyclic — no node is its own
descendant. -/
theorem set_parent_cycle_guard :
    (∀ (V : Type) (s : Scene V) (n p : Node),
      (s.parents.map Prod.fst).Nodup → Acyclic s.parents →
      Relation.ReflTransGen (pstep s.parents) p n → s.setParent n p = s) ∧
    (∀ (V : Type) (s : Scene V) (c : Nat), HReach s c →
      Acyclic s.parents) := by
  constructor
  · intro V s n p hnd hacyc hchain
    unfold Scene.setParent
    by_cases hlive : n ∈ s.nodes ∧ p ∈ s.nodes
    · rw [if_pos hlive, if_pos (chainHas_complete hnd hacyc hchain)]
    · rw [if_neg hlive]
  · intro V s c h
    exact (hReach_inv h).2

/-- C4 witness at concrete inputs: `set_parent(⟨1⟩, ⟨1⟩)` on the one-node
scene is a no-op (the chain starting at the parent contains the node
immediately), and the freshly created scene is acyclic. -/
theorem set_parent_cycle_guard_witness :
    c4scene.setParent ⟨1⟩ ⟨1⟩ = c4scene ∧
    Acyclic (Scene.new (V := Nat)).parents :=
  ⟨set_parent_cycle_guard.1 Nat c4scene ⟨1⟩ ⟨1⟩ (by decide) acyclic_nil
      Relation.ReflTransGen.refl,
    set_parent_cycle_guard.2 Nat Scene.new 1 (HReach.init 1)⟩

/-! ### Allocator arithmetic (C10) -/

section Allocator

variable {V : Type}

theorem usize_pos : 0 < USIZE := by decide

theorem add_mod_left_mod (a b n : Nat) : (a % n + b) % n = (a + b) % n := by
  conv_lhs => rw [Nat.add_mod]
  conv_rhs => rw [Nat.add_mod]
  rw [Nat.mod_mod_of_dvd _ (dvd_refl _)]

theorem wstep_spawn_some {w : World V} {i : Nat} {s : Scene V}
    (hs : w.scenes[i]? = some s) :
    wstep w (WOp.spawn i)
      = (⟨(w.counter + 1) % USIZE, w.scenes.set i (s.spawn w.counter).1⟩,
          some ⟨w.counter % USIZE⟩) := by
  unfold wstep
  dsimp only
  rw [hs]
  rfl

theorem wstep_counter_eq_of_no_issue {w : World V} {op : WOp}
    (h : (wstep w op).2 = none) : (wstep w op).1.counter = w.counter := by
  cases op with
  | spawn i =>
    cases hs : w.scenes[i]? with
    | some s => rw [wstep_spawn_some hs] at h; simp at h
    | none =>
      unfold wstep
      dsimp only
      rw [hs]
  | despawn i n =>
    unfold wstep
    dsimp only
    cases hs : w.scenes[i]? with
    | some s => rfl
    | none => rfl

/-- As long as the run issues few enough identities that the wrapping
counter never comes back around, the issued identities are exactly the
counter values in order. -/
theorem runOps_nowrap_spec :
    ∀ (ops : List WOp) (w : World V), w.counter < USIZE →
      w.counter + (runOps w ops).2.length ≤ USIZE →
      (runOps w ops).2.Pairwise (fun a b => a.id < b.id) ∧
      (∀ n ∈ (runOps w ops).2,
        w.counter ≤ n.id ∧ n.id < w.counter + (runOps w ops).2.length) := by
  intro ops
  induction ops with
  | nil =>
    intro w hc hk
    simp [runOps]
  | cons op rest ih =>
    intro w hc hk
    have hsplit : (runOps w (op :: rest)).2
        = (wstep w op).2.toList ++ (runOps (wstep w op).1 rest).2 := rfl
    rw [hsplit] at hk ⊢
    cases hiss : (wstep w op).2 with
    | none =>
      have hc0 : (wstep w op).1.counter = w.counter :=
        wstep_counter_eq_of_no_issue hiss
      rw [hiss] at hk
      simp only [Option.toList_none, List.nil_append] at hk ⊢
      have hres := ih (wstep w op).1 (by rw [hc0]; exact hc)
        (by rw [hc0]; exact hk)
      rw [hc0] at hres
      exact hres
    | some n₀ =>
      have hshape : n₀ = (⟨w.counter % USIZE⟩ : Node) ∧
          (wstep w op).1.counter = (w.counter + 1) % USIZE := by
        cases op with
        | spawn i =>
          cases hs : w.scenes[i]? with
          | some s =>
            rw [wstep_spawn_some hs] at hiss ⊢
            simp at hiss
            subst hiss
            exact ⟨rfl, rfl⟩
          | none =>
            unfold wstep at hiss
            dsimp only at hiss
            rw [hs] at hiss
            simp at hiss
        | despawn i m =>
          unfold wstep at hiss
          dsimp only at hiss
          cases hs : w.scenes[i]? with
          | some s => rw [hs] at hiss; simp at hiss
          | none => rw [hs] at hiss; simp at hiss
      obtain ⟨hid, hcnt⟩ := hshape
      rw [hiss] at hk
      simp only [Option.toList_some, List.cons_append, List.nil_append,
        List.length_cons] at hk ⊢
      have hcm : w.counter % USIZE = w.counter := Nat.mod_eq_of_lt hc
      by_cases hedge : w.counter + 1 < USIZE
      · have hcnt' : (wstep w op).1.counter = w.counter + 1 := by
          rw [hcnt]
          exact Nat.mod_eq_of_lt hedge
        have hrec := ih (wstep w op).1 (by rw [hcnt']; exact hedge)
          (by rw [hcnt']; omega)
        rw [hcnt'] at hrec
        obtain ⟨ihp, ihb⟩ := hrec
        constructor
        · rw [List.pairwise_cons]
          refine ⟨fun b hb => ?_, ihp⟩
          have hbb := (ihb b hb).1
          rw [hid]
          show w.counter % USIZE < b.id
          omega
        · intro n hn
          rcases List.mem_cons.1 hn with h | h
          · subst h
            rw [hid]
            refine ⟨?_, ?_⟩
            · show w.counter ≤ w.counter % USIZE
              omega
            · show w.counter % USIZE
                < w.counter + ((runOps (wstep w op).1 rest).2.length + 1)
              omega
          · have hbb := ihb n h
            omega
      · have hkz : (runOps (wstep w op).1 rest).2.length = 0 := by omega
        have hnil : (runOps (wstep w op).1 rest).2 = [] :=
          List.length_eq_zero.1 hkz
        rw [hnil]
        constructor
        · simp
        · intro n hn
          have hn' : n = n₀ := by simpa using hn
          subst hn'
          rw [hid]
          refine ⟨?_, ?_⟩
          · show w.counter ≤ w.counter % USIZE
            omega
          · show w.counter % USIZE < w.counter + (([] : List Node).length + 1)
            simp only [List.length_nil]
            omega

/-- Running `k` spawns against scene `0` issues the `k` consecutive wrapped
counter values. -/
theorem runOps_replicate_spawn :
    ∀ (k : Nat) (w : World V), w.scenes ≠ [] →
      (runOps w (List.replicate k (WOp.spawn 0))).2
        = (List.range k).map
            (fun j => (⟨(w.counter + j) % USIZE⟩ : Node)) := by
  intro k
  induction k with
  | zero =>
    intro w hw
    simp [runOps]
  | succ m ih =>
    intro w hw
    have hpos : 0 < w.scenes.length := List.length_pos.2 hw
    obtain ⟨s, hs⟩ : ∃ s, w.scenes[0]? = some s :=
      ⟨w.scenes[0], List.getElem?_eq_getElem hpos⟩
    rw [List.replicate_succ]
    have hsplit :
        (runOps w (WOp.spawn 0 :: List.replicate m (WOp.spawn 0))).2
          = (wstep w (WOp.spawn 0)).2.toList
            ++ (runOps (wstep w (WOp.spawn 0)).1
                  (List.replicate m (WOp.spawn 0))).2 := rfl
    rw [hsplit, wstep_spawn_some hs]
    dsimp only
    rw [ih ⟨(w.counter + 1) % USIZE, w.scenes.set 0 (s.spawn w.counter).1⟩
      (by
        intro hemp
        have hlen := congrArg List.length hemp
        rw [List.length_set] at hlen
        simp only [List.length_nil] at hlen
        exact hw (List.length_eq_zero.1 hlen))]
    dsimp only
    rw [List.range_succ_eq_map, List.map_cons, List.map_map]
    simp only [Nat.add_zero, Option.toList_some, List.cons_append,
      List.nil_append]
    congr 1
    refine List.map_congr_left ?_
    intro j hj
    simp only [Function.comp_apply]
    congr 1
    calc ((w.counter + 1) % USIZE + j) % USIZE
        = ((w.counter + 1) + j) % USIZE := add_mod_left_mod _ _ _
      _ = (w.counter + Nat.succ j) % USIZE := by
          congr 1
          omega

end Allocator

/-- C10 counterexample: the claim as stated quantifies over all spawn
sequences, but the shared allocator is an `AtomicUsize` whose `fetch_add`
wraps modulo `2^64`.  Starting from the allocator's real initial state
(counter `1`), `2^64` spawns issue a node whose identity `0` is smaller
than the previously issued identity `1`, and one further spawn reissues the
identity `1` — so the issued nodes are neither strictly increasing nor
pairwise distinct. -/
theorem allocator_wrap_reissues_identities :
    ¬ (runOps c10wrapWorld c10wrapOps).2.Pairwise
        (fun a b => a.id < b.id) ∧
    ¬ (runOps c10wrapWorld c10dupOps).2.Pairwise (fun a b => a ≠ b) := by
  have hne : c10wrapWorld.scenes ≠ [] := by
    simp [c10wrapWorld]
  have hc : c10wrapWorld.counter = 1 := rfl
  have hU2 : 2 ≤ USIZE := by decide
  constructor
  · intro hpw
    rw [show c10wrapOps = List.replicate USIZE (WOp.spawn 0) from rfl,
      runOps_replicate_spawn USIZE c10wrapWorld hne,
      List.pairwise_iff_getElem] at hpw
    have hlen : ((List.range USIZE).map
        (fun j => (⟨(c10wrapWorld.counter + j) % USIZE⟩ : Node))).length
          = USIZE := by
      simp
    have hb1 : 0 < ((List.range USIZE).map
        (fun j => (⟨(c10wrapWorld.counter + j) % USIZE⟩ : Node))).length := by
      rw [hlen]
      omega
    have hb2 : USIZE - 1 < ((List.range USIZE).map
        (fun j => (⟨(c10wrapWorld.counter + j) % USIZE⟩ : Node))).length := by
      rw [hlen]
      omega
    have hcmp := hpw 0 (USIZE - 1) hb1 hb2 (by omega)
    rw [List.getElem_map, List.getElem_map, List.getElem_range,
      List.getElem_range, hc] at hcmp
    have h1 : (1 + 0) % USIZE = 1 := Nat.mod_eq_of_lt (by omega)
    have h0 : (1 + (USIZE - 1)) % USIZE = 0 := by
      rw [show 1 + (USIZE - 1) = USIZE by omega]
      exact Nat.mod_self USIZE
    rw [h1, h0] at hcmp
    exact absurd hcmp (by decide)
  · intro hpw
    rw [show c10dupOps = List.replicate (USIZE + 1) (WOp.spawn 0) from rfl,
      runOps_replicate_spawn (USIZE + 1) c10wrapWorld hne,
      List.pairwise_iff_getElem] at hpw
    have hlen : ((List.range (USIZE + 1)).map
        (fun j => (⟨(c10wrapWorld.counter + j) % USIZE⟩ : Node))).length
          = USIZE + 1 := by
      simp
    have hb1 : 0 < ((List.range (USIZE + 1)).map
        (fun j => (⟨(c10wrapWorld.counter + j) % USIZE⟩ : Node))).length := by
      rw [hlen]
      omega
    have hb2 : USIZE < ((List.range (USIZE + 1)).map
        (fun j => (⟨(c10wrapWorld.counter + j) % USIZE⟩ : Node))).length := by
      rw [hlen]
      omega
    have hcmp := hpw 0 USIZE hb1 hb2 (by omega)
    rw [List.getElem_map, List.getElem_map, List.getElem_range,
      List.getElem_range, hc] at hcmp
    have h1 : (1 + 0) % USIZE = 1 := Nat.mod_eq_of_lt (by omega)
    have h1' : (1 + USIZE) % USIZE = 1 := by
      rw [Nat.add_mod_right]
      exact Nat.mod_eq_of_lt (by omega)
    rw [h1, h1'] at hcmp
    exact hcmp rfl

/-- C10 amended: as long as the 64-bit counter does not wrap during the
run — the starting counter plus the number of identities issued stays
within `2^64` — every interleaving of `spawn` and `despawn` over any
collection of scenes sharing the allocator issues strictly increasing
identities (hence pairwise distinct, also across despawn/respawn cycles),
bounded below by the starting counter, and never colliding with any
initially live node whose identity predates the counter.  Past `2^64`
issued identities the wrapping `fetch_add` reissues old identities. -/
theorem spawn_identities_fresh_while_unwrapped (V : Type) (w : World V)
    (ops : List WOp) (hc : w.counter < USIZE)
    (hk : w.counter + (runOps w ops).2.length ≤ USIZE) :
    (runOps w ops).2.Pairwise (fun a b => a.id < b.id) ∧
    (runOps w ops).2.Pairwise (fun a b => a ≠ b) ∧
    (∀ n ∈ (runOps w ops).2,
      w.counter ≤ n.id ∧ n.id < w.counter + (runOps w ops).2.length) ∧
    ((∀ s ∈ w.scenes, ∀ m ∈ s.nodes, m.id < w.counter) →
      ∀ n ∈ (runOps w ops).2, ∀ s ∈ w.scenes, n ∉ s.nodes) := by
  obtain ⟨h1, h2⟩ := runOps_nowrap_spec ops w hc hk
  refine ⟨h1, h1.imp ?_, h2, ?_⟩
  · intro a b hab heq
    rw [heq] at hab
    exact Nat.lt_irrefl _ hab
  · intro hlive n hn s hs hmem
    have hlt := hlive s hs n hmem
    have hge := (h2 n hn).1
    omega

/-- C10 amended witness at a concrete input: running
`spawn; despawn ⟨1⟩; spawn` on `c10world` (counter `1`, far from the wrap)
issues `[⟨1⟩, ⟨2⟩]` — the second spawn does not reuse the despawned
identity `⟨1⟩` — and no issued node collides with the pre-existing node
`⟨0⟩`. -/
theorem spawn_identities_fresh_while_unwrapped_witness :
    (runOps c10world c10ops).2.Pairwise (fun a b => a ≠ b) ∧
    (⟨1⟩ : Node) ∉ (⟨[⟨0⟩], [], [], [], []⟩ : Scene Nat).nodes :=
  ⟨(spawn_identities_fresh_while_unwrapped Nat c10world c10ops (by decide)
      (by decide)).2.1,
    (spawn_identities_fresh_while_unwrapped Nat c10world c10ops (by decide)
      (by decide)).2.2.2 (by decide) ⟨1⟩ (by decide) _ (by decide)⟩

end Pulse